import Mathlib

/-! timemock: a clock that can be frozen, moved and scaled

A shallow embedding of `timemock.go` (package `timemock`) and the properties of its
clock.

Modelling choices:

* `time.Time` is an integer number of nanoseconds on one time line (an `Int`); the wall
  clock and the monotonic clock of the Go runtime are one and the same reading.
* `time.Duration` is an `int64` number of nanoseconds (an `Int` within the `int64`
  range); `Time.Sub` saturates at the least and greatest `int64`, as the Go library
  documents.
* `time.Time` stores an `int64` of seconds since 1 January of year 1 and the nanoseconds
  within the second; the instants it holds are those of `Time.valid`.  `Time.Add` adds the
  nanoseconds and then the seconds, which saturate at the ends of that range, as the
  library's `Add` and `addSec` do; it is the exact sum whenever the sum is such an instant.
* `float64` is modelled bit for bit (`F64`): a value is NaN, an infinity, or a sign, a
  significand below `2^53` and a binary exponent; conversion from `int64` and
  multiplication round to nearest, ties to even; conversion to `int64` truncates toward
  zero.  The Go language leaves the result of converting a value that `int64` cannot hold
  to the implementation; that result is the parameter `unrep` of every reader.
* Every call that reads `time.Now()` takes the reading as an argument (`now`), so a
  sequence of calls is a sequence of state transformers fed with clock readings.
* The lock `rw` and the atomicity of the two flags are not modelled: calls are sequential.
-/

namespace timemock

/-! ## Instants and durations -/

/-! An instant (`time.Time`) is an `Int`, a number of nanoseconds; so is a signed span of
time (`time.Duration`), which as an `int64` lies between `minDuration` and `maxDuration`. -/

/-- The least `time.Duration`, `-1 << 63`. -/
def minDuration : Int := -9223372036854775808

/-- The greatest `time.Duration`, `1<<63 - 1`. -/
def maxDuration : Int := 9223372036854775807

/-- The method `Time.Sub`: the duration `t - u`, saturated to the range of `Duration`. -/
def Time.Sub (t u : Int) : Int :=
  if t - u < minDuration then minDuration
  else if maxDuration < t - u then maxDuration
  else t - u

/-- The least `int64`. -/
def minInt64 : Int := -9223372036854775808

/-- The greatest `int64`. -/
def maxInt64 : Int := 9223372036854775807

/-- The seconds from 1 January of year 1 to 1 January 1970 (`unixToInternal` in the Go
library). -/
def unixToInternal : Int := 62135596800

/-- The seconds since 1 January of year 1 of an instant: the `int64` a `time.Time` stores. -/
def Time.sec (t : Int) : Int := t / 1000000000 + unixToInternal

/-- The nanoseconds within the second of an instant, from `0` to `999999999`. -/
def Time.nsec (t : Int) : Int := t % 1000000000

/-- The instants a `time.Time` holds: those whose seconds since year 1 are an `int64`. -/
abbrev Time.valid (t : Int) : Prop := minInt64 ≤ Time.sec t ∧ Time.sec t ≤ maxInt64

/-- The method `Time.Add`, with the library's `addSec`: the duration is split into whole
seconds and nanoseconds (Go's `/` and `%` truncate toward zero), the nanoseconds are added
and carried into the seconds, and the seconds are added with saturation: when their sum
overflows `int64` the result keeps the new nanoseconds and has the greatest `int64` of
seconds for a forward move, and the negative of that for a backward one. -/
def Time.Add (t : Int) (d : Int) : Int :=
  let dsec0 : Int := Int.tdiv d 1000000000
  let nsec0 : Int := Time.nsec t + Int.tmod d 1000000000
  let dsec : Int :=
    if 1000000000 ≤ nsec0 then dsec0 + 1 else if nsec0 < 0 then dsec0 - 1 else dsec0
  let nsec : Int :=
    if 1000000000 ≤ nsec0 then nsec0 - 1000000000
    else if nsec0 < 0 then nsec0 + 1000000000 else nsec0
  let sum : Int := Time.sec t + dsec
  let sec : Int :=
    if 0 < dsec ∧ maxInt64 < sum then maxInt64
    else if dsec < 0 ∧ sum < minInt64 then -maxInt64
    else sum
  (sec - unixToInternal) * 1000000000 + nsec

/-- The function `time.Since(t)`, that is `time.Now().Sub(t)`, when `time.Now()` reads `now`. -/
def timeSince (now t : Int) : Int := Time.Sub now t

/-- The function `time.Unix(sec, 0)` of an `int64`: the seconds since year 1 are
`sec + unixToInternal`, an `int64` sum that wraps around. -/
def timeUnix (sec : Int) : Int :=
  ((sec + unixToInternal + 9223372036854775808) % 18446744073709551616
    - 9223372036854775808 - unixToInternal) * 1000000000

/-! ## Binary64 floating point -/

/-- A `float64`: NaN, an infinity, or the finite number `(-1)^neg * m * 2^e`.
The values of the type are those with `m < 2^53` and `e = -1074`, or
`2^52 ≤ m < 2^53` and `-1074 ≤ e ≤ 971` (see `F64.WF`). -/
inductive F64 where
  | nan : F64
  | inf (neg : Bool) : F64
  | fin (neg : Bool) (m : Nat) (e : Int) : F64
deriving DecidableEq, Repr

/-- A well-formed `float64`: the significand and exponent are those of an encoding. -/
def F64.WF : F64 → Prop
  | .nan => True
  | .inf _ => True
  | .fin _ m e => (m < 2 ^ 52 ∧ e = -1074) ∨ (2 ^ 52 ≤ m ∧ m < 2 ^ 53 ∧ -1074 ≤ e ∧ e ≤ 971)

/-- A finite `float64` (neither NaN nor an infinity). -/
def F64.isFinite : F64 → Bool
  | .fin _ _ _ => true
  | _ => false

/-- The number of binary digits of `n`, by halving at most `fuel` times. -/
def bitLenAux : Nat → Nat → Nat
  | 0, _ => 0
  | fuel + 1, n => if n = 0 then 0 else bitLenAux fuel (n / 2) + 1

/-- The number of binary digits of `n` (`0` for `0`). -/
def bitLen (n : Nat) : Nat := bitLenAux n n

/-- The quotient `n / 2^k` rounded to the nearest integer, ties to the even one. -/
def rne (n k : Nat) : Nat :=
  let q := n / 2 ^ k
  let r := n % 2 ^ k
  if 2 * r < 2 ^ k then q
  else if 2 * r = 2 ^ k then (if q % 2 = 0 then q else q + 1)
  else q + 1

/-- The `float64` nearest to `(-1)^neg * n * 2^e` (ties to even; overflow gives an
infinity; results below the normal range are rounded at the fixed exponent `-1074`). -/
def F64.round (neg : Bool) (n : Nat) (e : Int) : F64 :=
  if n = 0 then .fin neg 0 (-1074)
  else
    let e1 : Int := max (e + (bitLen n : Int) - 53) (-1074)
    let m : Nat := if e1 ≤ e then n * 2 ^ (e - e1).toNat else rne n (e1 - e).toNat
    let m2 : Nat := if m = 2 ^ 53 then 2 ^ 52 else m
    let e2 : Int := if m = 2 ^ 53 then e1 + 1 else e1
    if 971 < e2 then .inf neg else .fin neg m2 e2

/-- The conversion `float64(d)` of an `int64`. -/
def F64.ofInt64 (d : Int) : F64 := F64.round (decide (d < 0)) d.natAbs 0

/-- The `float64` product `x * y`. -/
def F64.mul : F64 → F64 → F64
  | .nan, _ => .nan
  | _, .nan => .nan
  | .inf a, .inf b => .inf (xor a b)
  | .inf a, .fin b m _ => if m = 0 then .nan else .inf (xor a b)
  | .fin a m _, .inf b => if m = 0 then .nan else .inf (xor a b)
  | .fin a m e, .fin b n f => F64.round (xor a b) (m * n) (e + f)

/-- The conversion `int64(x)` (here `time.Duration(x)`) of a `float64`: the fraction is
discarded; when the truncated value is not an `int64`, or `x` is NaN or an infinity, the
result is the implementation-dependent `unrep x`. -/
def F64.toInt64 (unrep : F64 → Int) : F64 → Int
  | .fin neg m e =>
    let a : Nat := if 0 ≤ e then m * 2 ^ e.toNat else m / 2 ^ (-e).toNat
    let v : Int := if neg then -(a : Int) else (a : Int)
    if minDuration ≤ v ∧ v ≤ maxDuration then v else unrep (.fin neg m e)
  | x => unrep x

/-- The `float64` constant `1`. -/
def F64.one : F64 := .fin false 4503599627370496 (-52)

/-- The conversion of unrepresentable values on amd64, where the instruction used
(`CVTTSD2SQ`) yields the least `int64` for every such operand. -/
def amd64 : F64 → Int := fun _ => minDuration

/-- The value of a finite `float64` with its fraction discarded (`0` for NaN and the
infinities, which have none). -/
def F64.trunc : F64 → Int
  | .fin neg m e =>
    let a : Nat := if 0 ≤ e then m * 2 ^ e.toNat else m / 2 ^ (-e).toNat
    if neg then -(a : Int) else (a : Int)
  | _ => 0

/-- The `float64` values that the conversion to `int64` represents: the finite ones whose
value, the fraction discarded, is an `int64`. -/
def F64.fitsInt64 (x : F64) : Bool :=
  x.isFinite && decide (minDuration ≤ x.trunc ∧ x.trunc ≤ maxDuration)

/-- The comparison `x >= 0` of `float64`: false for NaN, true for both zeros. -/
def F64.nonneg : F64 → Bool
  | .nan => false
  | .inf neg => !neg
  | .fin neg m _ => !neg || decide (m = 0)

/-- The comparison `x <= 0` of `float64`: false for NaN, true for both zeros. -/
def F64.nonpos : F64 → Bool
  | .nan => false
  | .inf neg => neg
  | .fin neg m _ => neg || decide (m = 0)

/-! ## The clock -/

/-- The struct `timemockClock`, without its lock. -/
structure timemockClock where
  frozen : Bool
  traveled : Bool
  freezeTime : Int
  travelTime : Int
  scale : F64
deriving DecidableEq, Repr

/-- The method `Scale`, called when `time.Now()` reads `now`. -/
def timemockClock.Scale (c : timemockClock) (scale : F64) (now : Int) : timemockClock :=
  let c1 := { c with scale := scale }
  if !c1.traveled then
    { c1 with freezeTime := now, travelTime := now, traveled := true }
  else c1

/-- The method `Now`, called when `time.Now()` reads `now`. -/
def timemockClock.Now (unrep : F64 → Int) (c : timemockClock) (now : Int) : Int :=
  if !c.frozen && !c.traveled then now
  else if c.frozen then c.freezeTime
  else if c.traveled then
    Time.Add c.freezeTime
      (F64.toInt64 unrep (F64.mul (F64.ofInt64 (timeSince now c.travelTime)) c.scale))
  else now

/-- The method `Freeze`. -/
def timemockClock.Freeze (c : timemockClock) (t : Int) : timemockClock :=
  { c with freezeTime := t, frozen := true }

/-- The method `Travel`, called when `time.Now()` reads `now`. -/
def timemockClock.Travel (c : timemockClock) (t : Int) (now : Int) : timemockClock :=
  { c with freezeTime := t, travelTime := now, traveled := true }

/-- The method `Since`, called when `time.Now()` reads `now`. -/
def timemockClock.Since (unrep : F64 → Int) (c : timemockClock) (t : Int) (now : Int) : Int :=
  Time.Sub (c.Now unrep now) t

/-- The method `Until`, called when `time.Now()` reads `now`. -/
def timemockClock.Until (unrep : F64 → Int) (c : timemockClock) (t : Int) (now : Int) : Int :=
  Time.Sub t (c.Now unrep now)

/-- The method `Return`. -/
def timemockClock.Return (c : timemockClock) : timemockClock :=
  { c with frozen := false, traveled := false, scale := F64.one }

/-- Modelled from the spec: the constructor `New`, which is not among the source files
(only its calls in the tests are). The spec gives "initial state: Live, scaleFactor = 1";
the two instants, which it leaves open, are the zero `time.Time` (1 January of year 1). -/
def New : timemockClock :=
  { frozen := false, traveled := false,
    freezeTime := timeUnix (-62135596800), travelTime := timeUnix (-62135596800),
    scale := F64.one }

/-- The duration `time.Duration(float64(d) * k)` of line 44 of `timemock.go`: the real
duration `d` scaled by the factor `k`. -/
def scaleDuration (unrep : F64 → Int) (k : F64) (d : Int) : Int :=
  F64.toInt64 unrep (F64.mul (F64.ofInt64 d) k)

/-- The reading rule of the data model, in the words of the spec: `anchorTime` when
*frozen* is set; otherwise `anchorTime + scaleFactor × (realNow − anchorRealTime)` when
*traveling* is set; otherwise the real-time reading. The difference of two instants is
the duration `Time.Sub` gives, the product is the `float64` product, and it is converted
to a whole number of nanoseconds as `time.Duration` does. -/
def NowSpec (unrep : F64 → Int) (c : timemockClock) (realNow : Int) : Int :=
  if c.frozen then c.freezeTime
  else if c.traveled then
    c.freezeTime + F64.toInt64 unrep (F64.mul c.scale (F64.ofInt64 (Time.Sub realNow c.travelTime)))
  else realNow

/-! ## Sequences of calls -/

/-- A call of one of the seven methods of the clock, with its argument. -/
inductive Call where
  | Now : Call
  | Since (t : Int) : Call
  | Until (t : Int) : Call
  | Freeze (t : Int) : Call
  | Travel (t : Int) : Call
  | Scale (scale : F64) : Call
  | Return : Call
deriving DecidableEq, Repr

/-- The three readers `Now`, `Since` and `Until`. -/
def Call.isReader : Call → Bool
  | .Now => true
  | .Since _ => true
  | .Until _ => true
  | _ => false

/-- The state of the clock after a call made when `time.Now()` reads `now`. -/
def Call.after (c : timemockClock) (now : Int) : Call → timemockClock
  | .Now => c
  | .Since _ => c
  | .Until _ => c
  | .Freeze t => c.Freeze t
  | .Travel t => c.Travel t now
  | .Scale k => c.Scale k now
  | .Return => c.Return

/-- The value a call made when `time.Now()` reads `now` returns: an instant for `Now`, a
duration for `Since` and `Until`, nothing for the four mutators. -/
def Call.result (unrep : F64 → Int) (c : timemockClock) (now : Int) : Call → Option Int
  | .Now => some (c.Now unrep now)
  | .Since t => some (c.Since unrep t now)
  | .Until t => some (c.Until unrep t now)
  | _ => none

/-- The state after a sequence of calls, each paired with the reading of the real clock
at the call. -/
def runCalls (c : timemockClock) : List (Call × Int) → timemockClock
  | [] => c
  | p :: rest => runCalls (p.1.after c p.2) rest

/-- The values returned along a sequence of calls, each paired with the reading of the
real clock at the call. -/
def results (unrep : F64 → Int) (c : timemockClock) : List (Call × Int) → List (Option Int)
  | [] => []
  | p :: rest => p.1.result unrep c p.2 :: results unrep (p.1.after c p.2) rest

/-- Two states with the same flags and factor, and the same anchor wherever a flag makes
that anchor readable: `freezeTime` when a flag is set, `travelTime` when traveling is. -/
def sameReadings (a b : timemockClock) : Prop :=
  a.frozen = b.frozen ∧ a.traveled = b.traveled ∧ a.scale = b.scale
  ∧ (a.frozen = true ∨ a.traveled = true → a.freezeTime = b.freezeTime)
  ∧ (a.traveled = true → a.travelTime = b.travelTime)

/-! ## Arithmetic of the `float64` model -/


theorem bitLenAux_zero (fuel : Nat) : bitLenAux fuel 0 = 0 := by
  cases fuel <;> simp [bitLenAux]

theorem lt_two_pow_bitLenAux : ∀ (fuel n : Nat), n ≤ fuel → n < 2 ^ bitLenAux fuel n
  | 0, n, h => by
    have : n = 0 := by omega
    subst this
    simp [bitLenAux]
  | fuel + 1, n, h => by
    by_cases hn : n = 0
    · subst hn
      simp [bitLenAux]
    · have ih := lt_two_pow_bitLenAux fuel (n / 2) (by omega)
      simp only [bitLenAux, hn, if_false, pow_succ]
      omega

theorem two_pow_bitLenAux_le : ∀ (fuel n : Nat), n ≤ fuel → n ≠ 0 →
    2 ^ (bitLenAux fuel n - 1) ≤ n
  | 0, n, h, hn => by omega
  | fuel + 1, n, h, hn => by
    simp only [bitLenAux, hn, if_false, Nat.add_sub_cancel]
    by_cases h2 : n / 2 = 0
    · rw [h2, bitLenAux_zero]
      simp
      omega
    · have ih := two_pow_bitLenAux_le fuel (n / 2) (by omega) h2
      have hlt := lt_two_pow_bitLenAux fuel (n / 2) (by omega)
      have hb : bitLenAux fuel (n / 2) ≠ 0 := by
        intro hb
        rw [hb] at hlt
        simp at hlt
        exact h2 hlt
      obtain ⟨b, hb2⟩ := Nat.exists_eq_succ_of_ne_zero hb
      rw [hb2] at ih ⊢
      simp only [Nat.succ_sub_one] at ih
      rw [Nat.succ_eq_add_one, pow_succ]
      omega

theorem lt_two_pow_bitLen (n : Nat) : n < 2 ^ bitLen n :=
  lt_two_pow_bitLenAux n n le_rfl

theorem two_pow_bitLen_le (n : Nat) (hn : n ≠ 0) : 2 ^ (bitLen n - 1) ≤ n :=
  two_pow_bitLenAux_le n n le_rfl hn

/-- The number of binary digits is fixed by the two powers of two around `n`. -/
theorem bitLen_eq (n k : Nat) (h1 : 2 ^ k ≤ n) (h2 : n < 2 ^ (k + 1)) : bitLen n = k + 1 := by
  have hn : n ≠ 0 := by
    have := Nat.two_pow_pos k
    omega
  have a := lt_two_pow_bitLen n
  have b := two_pow_bitLen_le n hn
  have c : k < bitLen n := (Nat.pow_lt_pow_iff_right (show 1 < 2 by decide)).1 (lt_of_le_of_lt h1 a)
  have d : bitLen n - 1 < k + 1 :=
    (Nat.pow_lt_pow_iff_right (show 1 < 2 by decide)).1 (lt_of_le_of_lt b h2)
  omega

theorem F64.round_eq (neg : Bool) (n : Nat) (e e1 : Int) (m : Nat) (hn : n ≠ 0)
    (he1 : max (e + (bitLen n : Int) - 53) (-1074) = e1)
    (hm : (if e1 ≤ e then n * 2 ^ (e - e1).toNat else rne n (e1 - e).toNat) = m)
    (hm53 : m ≠ 2 ^ 53) (he : e1 ≤ 971) : F64.round neg n e = .fin neg m e1 := by
  have h971 : ¬ (971 < e1) := not_lt.mpr he
  unfold F64.round
  simp only [hn, if_false, he1, hm, hm53, h971]

theorem rne_mul_two_pow (m k : Nat) : rne (m * 2 ^ k) k = m := by
  have hp : 0 < 2 ^ k := Nat.two_pow_pos k
  unfold rne
  simp only [Nat.mul_mod_left, Nat.mul_zero, hp, if_true, Nat.mul_div_cancel _ hp]

/-- Multiplying a normal `float64` by the constant `1` gives it back. -/
theorem F64.mul_one_normal (neg : Bool) (m : Nat) (e : Int) (h1 : 2 ^ 52 ≤ m)
    (h2 : m < 2 ^ 53) (h3 : -1074 ≤ e) (h4 : e ≤ 971) :
    F64.mul (.fin neg m e) F64.one = .fin neg m e := by
  have hb : bitLen (m * 4503599627370496) = 104 + 1 :=
    bitLen_eq _ 104 (by norm_num at h1 ⊢; omega) (by norm_num at h2 ⊢; omega)
  have hm0 : m * 4503599627370496 ≠ 0 := by norm_num at h1; omega
  simp only [F64.mul, F64.one, Bool.xor_false]
  apply F64.round_eq _ _ _ _ _ hm0
  · rw [hb]; push_cast; omega
  · have hk : (e - (e + -52)).toNat = 52 := by omega
    have hne : ¬ (e ≤ e + -52) := by omega
    rw [if_neg hne, hk]
    exact rne_mul_two_pow m 52
  · omega
  · exact h4

/-- Conversion to `float64` of a nonzero integer of at most 53 binary digits: the integer
itself, shifted so that its significand has exactly 53 digits. -/
theorem F64.ofInt64_small (d : Int) (h0 : d ≠ 0) (h : d.natAbs < 2 ^ 53) :
    ∃ j : Nat, j ≤ 52 ∧ 2 ^ 52 ≤ d.natAbs * 2 ^ j ∧ d.natAbs * 2 ^ j < 2 ^ 53
      ∧ F64.ofInt64 d = .fin (decide (d < 0)) (d.natAbs * 2 ^ j) (-(j : Int)) := by
  have hn : d.natAbs ≠ 0 := by simpa using h0
  have a := lt_two_pow_bitLen d.natAbs
  have b := two_pow_bitLen_le d.natAbs hn
  have hL0 : bitLen d.natAbs ≠ 0 := by
    intro hz
    rw [hz] at a
    simp at a
    exact h0 a
  have hL : bitLen d.natAbs - 1 < 53 :=
    (Nat.pow_lt_pow_iff_right (show 1 < 2 by decide)).1 (lt_of_le_of_lt b h)
  obtain ⟨j, hj⟩ : ∃ j : Nat, bitLen d.natAbs + j = 53 := ⟨53 - bitLen d.natAbs, by omega⟩
  have hlo : 2 ^ 52 ≤ d.natAbs * 2 ^ j := by
    have : 2 ^ (bitLen d.natAbs - 1) * 2 ^ j ≤ d.natAbs * 2 ^ j := Nat.mul_le_mul_right _ b
    rw [← pow_add] at this
    have e : bitLen d.natAbs - 1 + j = 52 := by omega
    rwa [e] at this
  have hhi : d.natAbs * 2 ^ j < 2 ^ 53 := by
    have : d.natAbs * 2 ^ j < 2 ^ bitLen d.natAbs * 2 ^ j :=
      Nat.mul_lt_mul_of_pos_right a (Nat.two_pow_pos j)
    rwa [← pow_add, hj] at this
  refine ⟨j, by omega, hlo, hhi, ?_⟩
  unfold F64.ofInt64
  apply F64.round_eq _ _ _ _ _ hn
  · omega
  · have hk : ((0 : Int) - -(j : Int)).toNat = j := by omega
    have hle : -(j : Int) ≤ 0 := by omega
    rw [if_pos hle, hk]
  · omega
  · omega

/-- Truncation of a finite `float64` whose value is the integer `(-1)^neg * n`. -/
theorem F64.toInt64_shifted (unrep : F64 → Int) (neg : Bool) (n j : Nat)
    (h : n ≤ 2 ^ 53) :
    F64.toInt64 unrep (.fin neg (n * 2 ^ j) (-(j : Int))) = if neg then -(n : Int) else n := by
  have ha : (if (0 : Int) ≤ -(j : Int) then n * 2 ^ j * 2 ^ (-(j : Int)).toNat
      else n * 2 ^ j / 2 ^ (-(-(j : Int))).toNat) = n := by
    by_cases hj : j = 0
    · subst hj
      simp
    · have hneg : ¬ ((0 : Int) ≤ -(j : Int)) := by omega
      have hk : (-(-(j : Int))).toNat = j := by omega
      rw [if_neg hneg, hk, Nat.mul_div_cancel _ (Nat.two_pow_pos j)]
  have h' : (n : Int) ≤ 9007199254740992 := by
    have : n ≤ 9007199254740992 := by norm_num at h; exact h
    exact_mod_cast this
  have hr : (-9223372036854775808 : Int) ≤ (if neg then -(n : Int) else (n : Int))
      ∧ (if neg then -(n : Int) else (n : Int)) ≤ (9223372036854775807 : Int) := by
    cases neg
    · simp only [Bool.false_eq_true, if_false]
      omega
    · simp only [if_true]
      omega
  simp only [F64.toInt64, ha, minDuration, maxDuration]
  rw [if_pos hr]

theorem F64.toInt64_zero (unrep : F64 → Int) (neg : Bool) (e : Int) :
    F64.toInt64 unrep (.fin neg 0 e) = 0 := by
  cases neg <;> simp [F64.toInt64, minDuration, maxDuration]

theorem F64.mul_zero_left (a b : Bool) (e f : Int) (n : Nat) :
    F64.mul (.fin a 0 e) (.fin b n f) = .fin (xor a b) 0 (-1074) := by
  simp [F64.mul, F64.round]

theorem F64.ofInt64_zero : F64.ofInt64 0 = .fin false 0 (-1074) := by
  simp [F64.ofInt64, F64.round]

set_option maxRecDepth 100000 in
theorem scale_one_two_pow_53 (unrep : F64 → Int) :
    F64.toInt64 unrep (F64.mul (F64.ofInt64 9007199254740992) F64.one) = 9007199254740992
    ∧ F64.toInt64 unrep (F64.mul (F64.ofInt64 (-9007199254740992)) F64.one)
      = -9007199254740992 := by
  constructor <;> rfl

/-- At rate `1` the conversion to `float64`, the product and the truncation give back
every duration of at most `2^53` nanoseconds in absolute value. -/
theorem scale_one_exact (unrep : F64 → Int) (d : Int)
    (h1 : -9007199254740992 ≤ d) (h2 : d ≤ 9007199254740992) :
    F64.toInt64 unrep (F64.mul (F64.ofInt64 d) F64.one) = d := by
  by_cases h0 : d = 0
  · subst h0
    rw [F64.ofInt64_zero, F64.one, F64.mul_zero_left, F64.toInt64_zero]
  by_cases hp : d = 9007199254740992
  · subst hp
    exact (scale_one_two_pow_53 unrep).1
  by_cases hm : d = -9007199254740992
  · subst hm
    exact (scale_one_two_pow_53 unrep).2
  have hlt : d.natAbs < 2 ^ 53 := by norm_num; omega
  obtain ⟨j, _, hlo, hhi, hof⟩ := F64.ofInt64_small d h0 hlt
  rw [hof, F64.mul_one_normal _ _ _ hlo hhi (by omega) (by omega),
    F64.toInt64_shifted unrep _ _ _ (le_of_lt hlt)]
  by_cases hd : d < 0
  · simp only [hd, decide_True, if_true]
    omega
  · simp only [hd, decide_False, Bool.false_eq_true, if_false]
    omega

theorem F64.mul_comm (x y : F64) : F64.mul x y = F64.mul y x := by
  cases x <;> cases y <;>
    simp [F64.mul, Bool.xor_comm, Nat.mul_comm, Int.add_comm]

theorem Time.Sub_self (t : Int) : Time.Sub t t = 0 := by
  simp [Time.Sub, minDuration, maxDuration]

theorem Time.Sub_add_left (t : Int) (d : Int) (h1 : minDuration ≤ d)
    (h2 : d ≤ maxDuration) : Time.Sub (t + d) t = d := by
  unfold Time.Sub
  have e : t + d - t = d := by omega
  rw [e, if_neg (not_lt.mpr h1), if_neg (not_lt.mpr h2)]

/-- No real time elapsed scales to no time, whatever the finite factor. -/
theorem scaleDuration_zero (unrep : F64 → Int) (k : F64) (hk : k.isFinite = true) :
    scaleDuration unrep k 0 = 0 := by
  cases k with
  | nan => simp [F64.isFinite] at hk
  | inf b => simp [F64.isFinite] at hk
  | fin b n f =>
    rw [scaleDuration, F64.ofInt64_zero, F64.mul_zero_left, F64.toInt64_zero]

theorem tdiv_tmod_facts (d : Int) :
    Int.tdiv d 1000000000 * 1000000000 + Int.tmod d 1000000000 = d
    ∧ -1000000000 < Int.tmod d 1000000000 ∧ Int.tmod d 1000000000 < 1000000000 := by
  have h1 := Int.tdiv_add_tmod d 1000000000
  have h2 := Int.tmod_lt_of_pos d (show (0 : Int) < 1000000000 by decide)
  refine ⟨by omega, ?_, h2⟩
  rcases Int.le_total 0 d with h | h
  · have := Int.tmod_nonneg (b := 1000000000) h
    omega
  · have h3 := Int.tdiv_add_tmod (-d) 1000000000
    have h4 := Int.tmod_lt_of_pos (-d) (show (0 : Int) < 1000000000 by decide)
    have h5 : Int.tdiv (-d) 1000000000 = -Int.tdiv d 1000000000 := Int.neg_tdiv d _
    omega

/-- The method `Add` gives the exact sum whenever that sum is an instant `time.Time`
holds. -/
theorem Time.Add_exact (t d : Int) (h : Time.valid (t + d)) : Time.Add t d = t + d := by
  obtain ⟨f1, f2, f3⟩ := tdiv_tmod_facts d
  unfold Time.valid Time.sec at h
  unfold Time.Add Time.sec Time.nsec
  unfold minInt64 maxInt64 unixToInternal at *
  simp only []
  generalize Int.tdiv d 1000000000 = q at *
  generalize Int.tmod d 1000000000 = r at *
  split_ifs <;> omega

/-- Adding no time gives the instant back. -/
theorem Time.Add_zero (t : Int) : Time.Add t 0 = t := by
  unfold Time.Add Time.sec Time.nsec
  unfold minInt64 maxInt64 unixToInternal
  simp only [Int.zero_tdiv, Int.zero_tmod]
  split_ifs <;> omega

/-- The reading of an unfrozen, traveling clock. -/
theorem now_traveling (unrep : F64 → Int) (c : timemockClock) (now : Int)
    (hf : c.frozen = false) (ht : c.traveled = true) :
    c.Now unrep now
      = Time.Add c.freezeTime (scaleDuration unrep c.scale (Time.Sub now c.travelTime)) := by
  simp [timemockClock.Now, hf, ht, timeSince, scaleDuration]


/-! ## Monotonicity of the `float64` model -/

/-- Rounding of a quotient is monotone in the numerator. -/
theorem rne_mono (k : Nat) {n1 n2 : Nat} (h : n1 ≤ n2) : rne n1 k ≤ rne n2 k := by
  have hP : 0 < 2 ^ k := Nat.two_pow_pos k
  have hq : n1 / 2 ^ k ≤ n2 / 2 ^ k := Nat.div_le_div_right h
  have e1 := Nat.div_add_mod n1 (2 ^ k)
  have e2 := Nat.div_add_mod n2 (2 ^ k)
  have l1 := Nat.mod_lt n1 hP
  have l2 := Nat.mod_lt n2 hP
  unfold rne
  simp only []
  generalize 2 ^ k = P at *
  generalize n1 / P = q1 at *
  generalize n2 / P = q2 at *
  generalize n1 % P = r1 at *
  generalize n2 % P = r2 at *
  rcases Nat.lt_or_ge q1 q2 with hlt | hge
  · split_ifs <;> omega
  · have hqq : q1 = q2 := by omega
    subst hqq
    have hr : r1 ≤ r2 := by omega
    split_ifs <;> omega

/-- Rounding does not see a common factor `2^j` of numerator and denominator. -/
theorem rne_shift (n k j : Nat) : rne (n * 2 ^ j) (k + j) = rne n k := by
  have hj : 0 < 2 ^ j := Nat.two_pow_pos j
  have hq : n * 2 ^ j / 2 ^ (k + j) = n / 2 ^ k := by
    rw [pow_add, Nat.mul_div_mul_right _ _ hj]
  have hr : n * 2 ^ j % 2 ^ (k + j) = n % 2 ^ k * 2 ^ j := by
    rw [pow_add, Nat.mul_mod_mul_right]
  unfold rne
  simp only [hq, hr]
  have c1 : (2 * (n % 2 ^ k * 2 ^ j) < 2 ^ (k + j)) ↔ (2 * (n % 2 ^ k) < 2 ^ k) := by
    rw [pow_add, ← Nat.mul_assoc]
    exact Nat.mul_lt_mul_right hj
  have c2 : (2 * (n % 2 ^ k * 2 ^ j) = 2 ^ (k + j)) ↔ (2 * (n % 2 ^ k) = 2 ^ k) := by
    rw [pow_add, ← Nat.mul_assoc]
    exact Nat.mul_left_inj (Nat.pos_iff_ne_zero.1 hj)
  simp only [c1, c2]

/-- A multiple of `2^k` below the numerator gives a lower bound of the rounded quotient. -/
theorem le_rne (n k m : Nat) (h : m * 2 ^ k ≤ n) : m ≤ rne n k := by
  have := rne_mono k h
  rwa [rne_mul_two_pow] at this

/-- A multiple of `2^k` above the numerator gives an upper bound of the rounded quotient. -/
theorem rne_le (n k m : Nat) (h : n ≤ m * 2 ^ k) : rne n k ≤ m := by
  have := rne_mono k h
  rwa [rne_mul_two_pow] at this

theorem bitLen_zero : bitLen 0 = 0 := rfl

theorem bitLen_mono {n1 n2 : Nat} (h : n1 ≤ n2) : bitLen n1 ≤ bitLen n2 := by
  by_cases h1 : n1 = 0
  · subst h1
    rw [bitLen_zero]
    exact Nat.zero_le _
  · have a := two_pow_bitLen_le n1 h1
    have b := lt_two_pow_bitLen n2
    have c : bitLen n1 - 1 < bitLen n2 :=
      (Nat.pow_lt_pow_iff_right (show 1 < 2 by decide)).1
        (lt_of_le_of_lt (le_trans a h) b)
    omega

theorem bitLen_pos {n : Nat} (h : n ≠ 0) : 0 < bitLen n := by
  have a := lt_two_pow_bitLen n
  rcases Nat.eq_zero_or_pos (bitLen n) with hz | hp
  · rw [hz] at a
    simp at a
    exact absurd a h
  · exact hp

theorem bitLen_mul_two_pow (n j : Nat) (h : n ≠ 0) : bitLen (n * 2 ^ j) = bitLen n + j := by
  have hp := bitLen_pos h
  have a := lt_two_pow_bitLen n
  have b := two_pow_bitLen_le n h
  have e : bitLen n + j = (bitLen n - 1 + j) + 1 := by omega
  rw [e]
  apply bitLen_eq
  · rw [pow_add]
    exact Nat.mul_le_mul_right _ b
  · have : bitLen n - 1 + j + 1 = bitLen n + j := by omega
    rw [this, pow_add]
    exact Nat.mul_lt_mul_of_pos_right a (Nat.two_pow_pos j)

/-- Rounding to 53 binary digits, with the digits below `2^c` always dropped, is monotone:
the smaller number has the smaller rounded value. -/
theorem rne_scaled_mono (c : Nat) {N1 N2 : Nat} (h : N1 ≤ N2) :
    rne N1 (max (bitLen N1 - 53) c) * 2 ^ max (bitLen N1 - 53) c
      ≤ rne N2 (max (bitLen N2 - 53) c) * 2 ^ max (bitLen N2 - 53) c := by
  have hL := bitLen_mono h
  generalize hk1 : max (bitLen N1 - 53) c = k1
  generalize hk2 : max (bitLen N2 - 53) c = k2
  have hk : k1 ≤ k2 := by omega
  rcases Nat.eq_or_lt_of_le hk with heq | hlt
  · subst heq
    exact Nat.mul_le_mul_right _ (rne_mono k1 h)
  · have hN2 : N2 ≠ 0 := by
      intro hz
      subst hz
      rw [bitLen_zero] at hk2
      omega
    have hk2e : bitLen N2 = 53 + k2 := by omega
    have hL1 : bitLen N1 ≤ 52 + k2 := by omega
    have lo : 2 ^ 52 * 2 ^ k2 ≤ N2 := by
      have := two_pow_bitLen_le N2 hN2
      have e : bitLen N2 - 1 = 52 + k2 := by omega
      rw [e, pow_add] at this
      exact this
    have hi : N1 ≤ 2 ^ (52 + k2 - k1) * 2 ^ k1 := by
      have a := lt_two_pow_bitLen N1
      have b : 2 ^ bitLen N1 ≤ 2 ^ (52 + k2) := Nat.pow_le_pow_right (by decide) hL1
      have e : 52 + k2 - k1 + k1 = 52 + k2 := by omega
      rw [← pow_add, e]
      omega
    have h1 : rne N1 k1 ≤ 2 ^ (52 + k2 - k1) := rne_le N1 k1 _ hi
    have h2 : 2 ^ 52 ≤ rne N2 k2 := le_rne N2 k2 _ lo
    calc rne N1 k1 * 2 ^ k1 ≤ 2 ^ (52 + k2 - k1) * 2 ^ k1 := Nat.mul_le_mul_right _ h1
      _ = 2 ^ 52 * 2 ^ k2 := by
          rw [← pow_add, ← pow_add]
          congr 1
          omega
      _ ≤ rne N2 k2 * 2 ^ k2 := Nat.mul_le_mul_right _ h2

/-- What `F64.round` computes, measured in units of `2^B` for any `B` below the exponents
in play: the number `N = n * 2^(e - B)` rounded to 53 binary digits, with the digits below
`2^(-1074)` dropped. -/
theorem F64.round_fin_units (s s' : Bool) (n : Nat) (e B : Int) (m : Nat) (g : Int)
    (hn : n ≠ 0) (hB1 : B ≤ e) (hB2 : B ≤ -1074)
    (h : F64.round s n e = .fin s' m g) :
    s' = s ∧ B ≤ g ∧
      m * 2 ^ (g - B).toNat
        = rne (n * 2 ^ (e - B).toNat)
            (max (bitLen (n * 2 ^ (e - B).toNat) - 53) (-1074 - B).toNat)
          * 2 ^ max (bitLen (n * 2 ^ (e - B).toNat) - 53) (-1074 - B).toNat := by
  have hbl : bitLen (n * 2 ^ (e - B).toNat) = bitLen n + (e - B).toNat :=
    bitLen_mul_two_pow n _ hn
  rw [hbl]
  generalize hk : max (bitLen n + (e - B).toNat - 53) (-1074 - B).toNat = k
  generalize he1 : max (e + (bitLen n : Int) - 53) (-1074) = e1 at h
  have hA : e1 = B + (k : Int) := by omega
  -- the significand before the carry
  have hB : rne (n * 2 ^ (e - B).toNat) k
      = (if e1 ≤ e then n * 2 ^ (e - e1).toNat else rne n (e1 - e).toNat) := by
    by_cases hle : e1 ≤ e
    · rw [if_pos hle]
      have e2 : (e - B).toNat = (e - e1).toNat + k := by omega
      rw [e2, pow_add, ← Nat.mul_assoc, rne_mul_two_pow]
    · rw [if_neg hle]
      have e2 : k = (e1 - e).toNat + (e - B).toNat := by omega
      rw [e2, rne_shift]
  unfold F64.round at h
  simp only [hn, if_false, he1] at h
  rw [← hB] at h
  generalize rne (n * 2 ^ (e - B).toNat) k = m0 at h ⊢
  by_cases hc : m0 = 2 ^ 53
  · simp only [hc, if_true] at h
    by_cases ho : 971 < e1 + 1
    · simp [ho] at h
    · simp only [ho, if_false, F64.fin.injEq] at h
      obtain ⟨h1, h2, h3⟩ := h
      refine ⟨h1.symm, by omega, ?_⟩
      have e3 : (g - B).toNat = k + 1 := by omega
      rw [← h2, e3, hc, pow_succ]
      norm_num
      ring
  · simp only [hc, if_false] at h
    by_cases ho : 971 < e1
    · simp [ho] at h
    · simp only [ho, if_false, F64.fin.injEq] at h
      obtain ⟨h1, h2, h3⟩ := h
      refine ⟨h1.symm, by omega, ?_⟩
      have e3 : (g - B).toNat = k := by omega
      rw [← h2, e3]

theorem F64.round_zero (s : Bool) (e : Int) : F64.round s 0 e = .fin s 0 (-1074) := by
  simp [F64.round]

/-- Rounding never gives NaN, and keeps the sign it is given. -/
theorem F64.round_fin_or_inf (s : Bool) (n : Nat) (e : Int) :
    F64.round s n e = .inf s ∨ ∃ m g, F64.round s n e = .fin s m g := by
  unfold F64.round
  simp only []
  split_ifs <;> first | exact Or.inl rfl | exact Or.inr ⟨_, _, rfl⟩

/-- Rounding is monotone: of two numbers `n1 * 2^e1 ≤ n2 * 2^e2`, compared in units of
`2^B`, the smaller has the smaller rounded value. -/
theorem F64.round_mono_units (s1 s2 t1 t2 : Bool) (n1 n2 : Nat) (e1 e2 B : Int)
    (m1 m2 : Nat) (g1 g2 : Int)
    (hB1 : B ≤ e1) (hB2 : B ≤ e2) (hB : B ≤ -1074)
    (hle : n1 * 2 ^ (e1 - B).toNat ≤ n2 * 2 ^ (e2 - B).toNat)
    (h1 : F64.round s1 n1 e1 = .fin t1 m1 g1)
    (h2 : F64.round s2 n2 e2 = .fin t2 m2 g2) :
    t1 = s1 ∧ t2 = s2 ∧ B ≤ g1 ∧ B ≤ g2
      ∧ m1 * 2 ^ (g1 - B).toNat ≤ m2 * 2 ^ (g2 - B).toNat := by
  have z : ∀ (s t : Bool) (e : Int) (m : Nat) (g : Int),
      F64.round s 0 e = .fin t m g → t = s ∧ B ≤ g ∧ m = 0 := by
    intro s t e m g h
    rw [F64.round_zero] at h
    simp only [F64.fin.injEq] at h
    obtain ⟨a, b, c⟩ := h
    exact ⟨a.symm, by omega, b.symm⟩
  by_cases hn2 : n2 = 0
  · subst hn2
    have hn1 : n1 = 0 := by
      have hp : 0 < 2 ^ (e1 - B).toNat := Nat.two_pow_pos _
      simp only [Nat.zero_mul, Nat.le_zero, Nat.mul_eq_zero] at hle
      rcases hle with h | h
      · exact h
      · omega
    subst hn1
    obtain ⟨a1, b1, c1⟩ := z _ _ _ _ _ h1
    obtain ⟨a2, b2, c2⟩ := z _ _ _ _ _ h2
    subst c1 c2
    exact ⟨a1, a2, b1, b2, by simp⟩
  · obtain ⟨a2, b2, c2⟩ := F64.round_fin_units s2 t2 n2 e2 B m2 g2 hn2 hB2 hB h2
    by_cases hn1 : n1 = 0
    · subst hn1
      obtain ⟨a1, b1, c1⟩ := z _ _ _ _ _ h1
      subst c1
      exact ⟨a1, a2, b1, b2, by simp⟩
    · obtain ⟨a1, b1, c1⟩ := F64.round_fin_units s1 t1 n1 e1 B m1 g1 hn1 hB1 hB h1
      refine ⟨a1, a2, b1, b2, ?_⟩
      rw [c1, c2]
      exact rne_scaled_mono _ hle

/-- The whole nanoseconds in `m * 2^g`, from that number in units of `2^B`. -/
theorem trunc_units (m : Nat) (g B : Int) (hB : B ≤ 0) (hg : B ≤ g) :
    (if 0 ≤ g then m * 2 ^ g.toNat else m / 2 ^ (-g).toNat)
      = m * 2 ^ (g - B).toNat / 2 ^ (-B).toNat := by
  by_cases h : 0 ≤ g
  · rw [if_pos h]
    have e : (g - B).toNat = g.toNat + (-B).toNat := by omega
    rw [e, pow_add, ← Nat.mul_assoc, Nat.mul_div_cancel _ (Nat.two_pow_pos _)]
  · rw [if_neg h]
    have e : (-B).toNat = (-g).toNat + (g - B).toNat := by omega
    rw [e, pow_add, Nat.mul_div_mul_right _ _ (Nat.two_pow_pos _)]

/-- A finite product has a finite first factor. -/
theorem F64.mul_round_fin (s b t : Bool) (a n m : Nat) (f g : Int)
    (h : F64.mul (F64.round s a 0) (.fin b n f) = .fin t m g) :
    ∃ M E, F64.round s a 0 = .fin s M E
      ∧ F64.round (xor s b) (M * n) (E + f) = .fin t m g := by
  rcases F64.round_fin_or_inf s a 0 with hi | ⟨M, E, hfin⟩
  · rw [hi] at h
    simp only [F64.mul] at h
    split_ifs at h
  · refine ⟨M, E, hfin, ?_⟩
    rw [hfin] at h
    simpa only [F64.mul] using h

/-- The whole nanoseconds in the product of a duration and a finite factor grow with the
absolute value of the duration. -/
theorem scaled_abs_mono (s1 s2 b t1 t2 : Bool) (a1 a2 n m1 m2 : Nat) (f g1 g2 : Int)
    (hle : a1 ≤ a2)
    (h1 : F64.mul (F64.round s1 a1 0) (.fin b n f) = .fin t1 m1 g1)
    (h2 : F64.mul (F64.round s2 a2 0) (.fin b n f) = .fin t2 m2 g2) :
    t1 = xor s1 b ∧ t2 = xor s2 b
      ∧ (if 0 ≤ g1 then m1 * 2 ^ g1.toNat else m1 / 2 ^ (-g1).toNat)
          ≤ (if 0 ≤ g2 then m2 * 2 ^ g2.toNat else m2 / 2 ^ (-g2).toNat) := by
  obtain ⟨M1, E1, hr1, hp1⟩ := F64.mul_round_fin s1 b t1 a1 n m1 f g1 h1
  obtain ⟨M2, E2, hr2, hp2⟩ := F64.mul_round_fin s2 b t2 a2 n m2 f g2 h2
  -- the conversion of the durations
  obtain ⟨_, _, hE1, hE2, hM⟩ :=
    F64.round_mono_units s1 s2 s1 s2 a1 a2 0 0 (-1074) M1 M2 E1 E2
      (by omega) (by omega) (le_refl _) (Nat.mul_le_mul_right _ hle) hr1 hr2
  -- the product
  obtain ⟨B, hBdef⟩ : ∃ B : Int, B = min (f - 1074) (-1074) := ⟨_, rfl⟩
  have hB : B ≤ -1074 := by omega
  have hle2 : M1 * n * 2 ^ (E1 + f - B).toNat ≤ M2 * n * 2 ^ (E2 + f - B).toNat := by
    have x1 : (E1 + f - B).toNat = (E1 - -1074).toNat + (f - 1074 - B).toNat := by omega
    have x2 : (E2 + f - B).toNat = (E2 - -1074).toNat + (f - 1074 - B).toNat := by omega
    have r1 : M1 * n * 2 ^ (E1 + f - B).toNat
        = M1 * 2 ^ (E1 - -1074).toNat * (n * 2 ^ (f - 1074 - B).toNat) := by
      rw [x1, pow_add]; ring
    have r2 : M2 * n * 2 ^ (E2 + f - B).toNat
        = M2 * 2 ^ (E2 - -1074).toNat * (n * 2 ^ (f - 1074 - B).toNat) := by
      rw [x2, pow_add]; ring
    rw [r1, r2]
    exact Nat.mul_le_mul_right _ hM
  obtain ⟨ht1, ht2, hg1, hg2, hm⟩ :=
    F64.round_mono_units (xor s1 b) (xor s2 b) t1 t2 (M1 * n) (M2 * n) (E1 + f) (E2 + f) B
      m1 m2 g1 g2 (by omega) (by omega) hB hle2 hp1 hp2
  refine ⟨ht1, ht2, ?_⟩
  rw [trunc_units m1 g1 B (by omega) hg1, trunc_units m2 g2 B (by omega) hg2]
  exact Nat.div_le_div_right hm

theorem F64.toInt64_of_fits (unrep : F64 → Int) (x : F64) (h : x.fitsInt64 = true) :
    F64.toInt64 unrep x = x.trunc := by
  cases x with
  | nan => simp [F64.fitsInt64, F64.isFinite] at h
  | inf b => simp [F64.fitsInt64, F64.isFinite] at h
  | fin t m g =>
    simp only [F64.fitsInt64, F64.isFinite, Bool.true_and, decide_eq_true_eq, F64.trunc] at h
    simp only [F64.toInt64, F64.trunc]
    rw [if_pos h]

theorem F64.fin_of_fits (x : F64) (h : x.fitsInt64 = true) : ∃ t m g, x = .fin t m g := by
  cases x with
  | nan => simp [F64.fitsInt64, F64.isFinite] at h
  | inf b => simp [F64.fitsInt64, F64.isFinite] at h
  | fin t m g => exact ⟨t, m, g, rfl⟩

/-- A finite product of a rounded number has a finite second factor. -/
theorem F64.mul_round_fin_right (s t : Bool) (a m : Nat) (g : Int) (k : F64)
    (h : F64.mul (F64.round s a 0) k = .fin t m g) : ∃ b n f, k = .fin b n f := by
  cases k with
  | fin b n f => exact ⟨b, n, f, rfl⟩
  | nan =>
    rcases F64.round_fin_or_inf s a 0 with hi | ⟨M, E, hfin⟩
    · rw [hi] at h; simp [F64.mul] at h
    · rw [hfin] at h; simp [F64.mul] at h
  | inf b =>
    rcases F64.round_fin_or_inf s a 0 with hi | ⟨M, E, hfin⟩
    · rw [hi] at h; simp [F64.mul] at h
    · rw [hfin] at h
      simp only [F64.mul] at h
      split_ifs at h

/-- The product of a duration and a zero factor is a zero. -/
theorem scaled_zero (s b t : Bool) (a m : Nat) (f g : Int)
    (h : F64.mul (F64.round s a 0) (.fin b 0 f) = .fin t m g) : m = 0 := by
  obtain ⟨M, E, _, hp⟩ := F64.mul_round_fin s b t a 0 m f g h
  rw [Nat.mul_zero, F64.round_zero] at hp
  simp only [F64.fin.injEq] at hp
  exact hp.2.1.symm

/-- The scaled duration, its fraction discarded, grows with the duration when the factor
is `≥ 0` and shrinks when the factor is `≤ 0`, as long as the products are finite. -/
theorem trunc_scaled_mono (b : Bool) (n : Nat) (f : Int) (d1 d2 : Int) (hd : d1 ≤ d2)
    (t1 t2 : Bool) (m1 m2 : Nat) (g1 g2 : Int)
    (h1 : F64.mul (F64.ofInt64 d1) (.fin b n f) = .fin t1 m1 g1)
    (h2 : F64.mul (F64.ofInt64 d2) (.fin b n f) = .fin t2 m2 g2) :
    (b = false ∨ n = 0 → (F64.fin t1 m1 g1).trunc ≤ (F64.fin t2 m2 g2).trunc)
    ∧ (b = true ∨ n = 0 → (F64.fin t2 m2 g2).trunc ≤ (F64.fin t1 m1 g1).trunc) := by
  unfold F64.ofInt64 at h1 h2
  simp only [F64.trunc]
  by_cases hn : n = 0
  · subst hn
    have z1 := scaled_zero _ _ _ _ _ _ _ h1
    have z2 := scaled_zero _ _ _ _ _ _ _ h2
    subst z1 z2
    simp
  · have signs : t1 = xor (decide (d1 < 0)) b ∧ t2 = xor (decide (d2 < 0)) b := by
      rcases le_total d1.natAbs d2.natAbs with hle | hle
      · obtain ⟨a, c, _⟩ := scaled_abs_mono _ _ b t1 t2 _ _ n m1 m2 f g1 g2 hle h1 h2
        exact ⟨a, c⟩
      · obtain ⟨a, c, _⟩ := scaled_abs_mono _ _ b t2 t1 _ _ n m2 m1 f g2 g1 hle h2 h1
        exact ⟨c, a⟩
    have hpos : 0 ≤ d1 →
        (if 0 ≤ g1 then m1 * 2 ^ g1.toNat else m1 / 2 ^ (-g1).toNat)
          ≤ (if 0 ≤ g2 then m2 * 2 ^ g2.toNat else m2 / 2 ^ (-g2).toNat) := by
      intro h0
      exact (scaled_abs_mono _ _ b t1 t2 _ _ n m1 m2 f g1 g2 (by omega) h1 h2).2.2
    have hneg : d2 < 0 →
        (if 0 ≤ g2 then m2 * 2 ^ g2.toNat else m2 / 2 ^ (-g2).toNat)
          ≤ (if 0 ≤ g1 then m1 * 2 ^ g1.toNat else m1 / 2 ^ (-g1).toNat) := by
      intro h0
      exact (scaled_abs_mono _ _ b t2 t1 _ _ n m2 m1 f g2 g1 (by omega) h2 h1).2.2
    obtain ⟨s1, s2⟩ := signs
    generalize (if 0 ≤ g1 then m1 * 2 ^ g1.toNat else m1 / 2 ^ (-g1).toNat) = A1 at *
    generalize (if 0 ≤ g2 then m2 * 2 ^ g2.toNat else m2 / 2 ^ (-g2).toNat) = A2 at *
    subst s1 s2
    constructor
    · intro hb
      have hb' : b = false := by
        rcases hb with h | h
        · exact h
        · exact absurd h hn
      subst hb'
      by_cases c1 : d1 < 0 <;> by_cases c2 : d2 < 0 <;>
        simp only [c1, c2, decide_True, decide_False, Bool.xor_false, if_true,
          Bool.false_eq_true, if_false] <;>
        omega
    · intro hb
      have hb' : b = true := by
        rcases hb with h | h
        · exact h
        · exact absurd h hn
      subst hb'
      by_cases c1 : d1 < 0 <;> by_cases c2 : d2 < 0 <;>
        simp only [c1, c2, decide_True, decide_False, Bool.xor_true, Bool.not_true,
          Bool.not_false, if_true, Bool.false_eq_true, if_false] <;>
        omega

theorem Time.Sub_mono (t : Int) {r1 r2 : Int} (h : r1 ≤ r2) : Time.Sub r1 t ≤ Time.Sub r2 t := by
  unfold Time.Sub minDuration maxDuration
  split_ifs <;> omega

theorem Time.Sub_bounds (t u : Int) :
    minDuration ≤ Time.Sub t u ∧ Time.Sub t u ≤ maxDuration := by
  unfold Time.Sub minDuration maxDuration
  split_ifs <;> constructor <;> omega

/-- The conversion to `float64` of an `int64` is finite. -/
theorem F64.ofInt64_fin (d : Int) (h1 : minDuration ≤ d) (h2 : d ≤ maxDuration) :
    ∃ M E, F64.ofInt64 d = .fin (decide (d < 0)) M E := by
  unfold minDuration at h1
  unfold maxDuration at h2
  have hL : bitLen d.natAbs ≤ 64 := by
    have hlt : d.natAbs < 2 ^ 64 := by norm_num; omega
    by_cases h0 : d.natAbs = 0
    · rw [h0, bitLen_zero]; omega
    · have a := two_pow_bitLen_le d.natAbs h0
      have c : bitLen d.natAbs - 1 < 64 :=
        (Nat.pow_lt_pow_iff_right (show 1 < 2 by decide)).1 (lt_of_le_of_lt a hlt)
      omega
  unfold F64.ofInt64 F64.round
  simp only []
  split_ifs <;> first | exact ⟨_, _, rfl⟩ | (exfalso; omega)

/-- A zero factor scales every duration to zero. -/
theorem scaleDuration_zero_factor (unrep : F64 → Int) (b : Bool) (e : Int) (d : Int)
    (h1 : minDuration ≤ d) (h2 : d ≤ maxDuration) :
    scaleDuration unrep (.fin b 0 e) d = 0 := by
  obtain ⟨M, E, hfin⟩ := F64.ofInt64_fin d h1 h2
  rw [scaleDuration, hfin]
  simp only [F64.mul, Nat.mul_zero, F64.round_zero]
  exact F64.toInt64_zero unrep _ _

/-! ## Exact products -/

/-- Rounding is finite well below the overflow threshold. -/
theorem F64.round_fin_of_small (s : Bool) (n : Nat) (e : Int)
    (h : e + (bitLen n : Int) ≤ 1023) : ∃ m g, F64.round s n e = .fin s m g := by
  unfold F64.round
  simp only []
  split_ifs <;> first | exact ⟨_, _, rfl⟩ | (exfalso; omega)

/-- Rounding leaves a number of at most 53 binary digits as it is: measured in units of
`2^B`, a number `V * 2^x` with `V ≤ 2^53` above the least exponent is its own rounding. -/
theorem F64.round_exact_units (s t : Bool) (n : Nat) (e B : Int) (m : Nat) (g : Int)
    (V x : Nat) (hB1 : B ≤ e) (hB2 : B ≤ -1074)
    (hN : n * 2 ^ (e - B).toNat = V * 2 ^ x) (hV : V ≤ 2 ^ 53)
    (hx : (-1074 - B).toNat ≤ x)
    (h : F64.round s n e = .fin t m g) :
    t = s ∧ B ≤ g ∧ m * 2 ^ (g - B).toNat = V * 2 ^ x := by
  by_cases hn : n = 0
  · subst hn
    rw [F64.round_zero] at h
    simp only [F64.fin.injEq] at h
    obtain ⟨a, b, c⟩ := h
    refine ⟨a.symm, by omega, ?_⟩
    rw [← b, ← hN]
    simp
  · obtain ⟨a, b, c⟩ := F64.round_fin_units s t n e B m g hn hB1 hB2 h
    refine ⟨a, b, ?_⟩
    rw [c, hN]
    have hN0 : n * 2 ^ (e - B).toNat ≠ 0 :=
      Nat.mul_ne_zero hn (Nat.pos_iff_ne_zero.1 (Nat.two_pow_pos _))
    have hV0 : V ≠ 0 := by
      intro hz
      rw [hz, Nat.zero_mul] at hN
      exact hN0 hN
    generalize hk : max (bitLen (V * 2 ^ x) - 53) (-1074 - B).toNat = k
    have hbl : bitLen (V * 2 ^ x) = bitLen V + x := bitLen_mul_two_pow V x hV0
    -- the number is a multiple of `2^k`
    have hdvd : ∃ q, V * 2 ^ x = q * 2 ^ k := by
      rcases Nat.lt_or_ge V (2 ^ 53) with hlt | hge
      · have hbV : bitLen V ≤ 53 := by
          have a1 := two_pow_bitLen_le V hV0
          have c1 : bitLen V - 1 < 53 :=
            (Nat.pow_lt_pow_iff_right (show 1 < 2 by decide)).1 (lt_of_le_of_lt a1 hlt)
          omega
        have hkx : k ≤ x := by omega
        refine ⟨V * 2 ^ (x - k), ?_⟩
        rw [Nat.mul_assoc, ← pow_add]
        congr 2
        omega
      · have hVe : V = 2 ^ 53 := Nat.le_antisymm hV hge
        have hbV : bitLen V = 54 := by
          rw [hVe]
          exact bitLen_eq (2 ^ 53) 53 (le_refl _) (by norm_num)
        have hkx : k ≤ x + 53 := by omega
        refine ⟨2 ^ (x + 53 - k), ?_⟩
        rw [hVe, ← pow_add, ← pow_add]
        congr 1
        omega
    obtain ⟨q, hq⟩ := hdvd
    rw [hq, rne_mul_two_pow]

theorem F64.mul_fin_fin (a b : Bool) (m n : Nat) (e f : Int) :
    F64.mul (.fin a m e) (.fin b n f) = F64.round (xor a b) (m * n) (e + f) := rfl

/-- The product of a duration and an integer factor, both converted to `float64`, is
exact: when the factor and the true product have at most 53 binary digits, the scaled
duration is the true product. -/
theorem scale_int_exact (unrep : F64 → Int) (K d : Int)
    (hd1 : minDuration ≤ d) (hd2 : d ≤ maxDuration)
    (hK1 : -9007199254740992 ≤ K) (hK2 : K ≤ 9007199254740992)
    (hP1 : -9007199254740992 ≤ K * d) (hP2 : K * d ≤ 9007199254740992) :
    scaleDuration unrep (F64.ofInt64 K) d = K * d := by
  obtain ⟨Md, Ed, hfd⟩ := F64.ofInt64_fin d hd1 hd2
  obtain ⟨MK, EK, hfK⟩ := F64.ofInt64_fin K (by unfold minDuration; omega)
    (by unfold maxDuration; omega)
  have hKabs : K.natAbs ≤ 2 ^ 53 := by norm_num; omega
  have hPabs : K.natAbs * d.natAbs ≤ 2 ^ 53 := by
    rw [← Int.natAbs_mul]; norm_num; omega
  have x2 : ((0 : Int) - -1074).toNat = 1074 := by omega
  -- the factor is converted exactly
  obtain ⟨_, hEK, hMK⟩ := F64.round_exact_units (decide (K < 0)) (decide (K < 0)) K.natAbs 0
    (-1074) MK EK K.natAbs 1074 (by omega) (le_refl _) (by rw [x2]) hKabs (by omega) hfK
  rw [scaleDuration, hfd, hfK, F64.mul_fin_fin]
  by_cases hK0 : K = 0
  · subst hK0
    have hM0 : MK = 0 := by
      rw [Int.natAbs_zero, Nat.zero_mul] at hMK
      rcases Nat.mul_eq_zero.1 hMK with h | h
      · exact h
      · exact absurd h (Nat.pos_iff_ne_zero.1 (Nat.two_pow_pos _))
    rw [hM0, Nat.mul_zero, F64.round_zero, F64.toInt64_zero]
    simp
  · -- the duration is converted exactly
    have hdabs : d.natAbs ≤ 2 ^ 53 := by
      have hKpos : 1 ≤ K.natAbs := by omega
      calc d.natAbs = 1 * d.natAbs := (Nat.one_mul _).symm
        _ ≤ K.natAbs * d.natAbs := Nat.mul_le_mul_right _ hKpos
        _ ≤ 2 ^ 53 := hPabs
    obtain ⟨_, hEd, hMd⟩ := F64.round_exact_units (decide (d < 0)) (decide (d < 0)) d.natAbs
      0 (-1074) Md Ed d.natAbs 1074 (by omega) (le_refl _) (by rw [x2]) hdabs (by omega) hfd
    -- the product, in units of `2^(-2148)`
    obtain ⟨x, hx⟩ : ∃ x : Nat, x = 1074 + 1074 := ⟨_, rfl⟩
    have hN : Md * MK * 2 ^ (Ed + EK - -2148).toNat = K.natAbs * d.natAbs * 2 ^ x := by
      have x1 : (Ed + EK - -2148).toNat = (Ed - -1074).toNat + (EK - -1074).toNat := by omega
      calc Md * MK * 2 ^ (Ed + EK - -2148).toNat
          = (Md * 2 ^ (Ed - -1074).toNat) * (MK * 2 ^ (EK - -1074).toNat) := by
            rw [x1, pow_add]; ring
        _ = (d.natAbs * 2 ^ 1074) * (K.natAbs * 2 ^ 1074) := by rw [hMd, hMK]
        _ = K.natAbs * d.natAbs * 2 ^ x := by rw [hx, pow_add]; ring
    by_cases hz : Md * MK = 0
    · have hP0 : K.natAbs * d.natAbs = 0 := by
        rw [hz, Nat.zero_mul] at hN
        have := Nat.mul_eq_zero.1 hN.symm
        rcases this with h | h
        · exact h
        · exact absurd h (Nat.pos_iff_ne_zero.1 (Nat.two_pow_pos _))
      have hd0 : d = 0 := by
        rcases Nat.mul_eq_zero.1 hP0 with h | h
        · exact absurd (Int.natAbs_eq_zero.1 h) hK0
        · exact Int.natAbs_eq_zero.1 h
      rw [hz, F64.round_zero, F64.toInt64_zero, hd0]
      simp
    · have hfin : ∃ m g, F64.round (xor (decide (d < 0)) (decide (K < 0))) (Md * MK) (Ed + EK)
          = .fin (xor (decide (d < 0)) (decide (K < 0))) m g := by
        apply F64.round_fin_of_small
        have hb1 := bitLen_mul_two_pow (Md * MK) (Ed + EK - -2148).toNat hz
        have hb2 : bitLen (K.natAbs * d.natAbs * 2 ^ x) ≤ 54 + x := by
          have : K.natAbs * d.natAbs * 2 ^ x ≤ 2 ^ 53 * 2 ^ x :=
            Nat.mul_le_mul_right _ hPabs
          have hb3 := bitLen_mono this
          have hb4 : bitLen (2 ^ 53 * 2 ^ x) = bitLen (2 ^ 53) + x :=
            bitLen_mul_two_pow (2 ^ 53) x (by norm_num)
          have hb5 : bitLen (2 ^ 53) = 53 + 1 :=
            bitLen_eq (2 ^ 53) 53 (le_refl _) (by norm_num)
          omega
        rw [hN] at hb1
        omega
      obtain ⟨m, g, hr⟩ := hfin
      obtain ⟨_, hg, hm⟩ := F64.round_exact_units _ _ (Md * MK) (Ed + EK) (-2148) m g
        (K.natAbs * d.natAbs) x (by omega) (by omega) hN hPabs (by omega) hr
      rw [hr]
      have htr := trunc_units m g (-2148) (by omega) hg
      have x3 : (-(-2148 : Int)).toNat = x := by omega
      rw [hm, x3, Nat.mul_div_cancel _ (Nat.two_pow_pos _)] at htr
      simp only [F64.toInt64, htr]
      have hcast : ((K.natAbs * d.natAbs : Nat) : Int) = |K| * |d| := by
        push_cast
        rfl
      have hle : ((K.natAbs * d.natAbs : Nat) : Int) ≤ 9007199254740992 := by
        have : K.natAbs * d.natAbs ≤ 9007199254740992 := by norm_num at hPabs; exact hPabs
        exact_mod_cast this
      have hsign : (if xor (decide (d < 0)) (decide (K < 0)) then
          -((K.natAbs * d.natAbs : Nat) : Int) else ((K.natAbs * d.natAbs : Nat) : Int))
          = K * d := by
        rw [hcast]
        rcases lt_or_le d 0 with h1 | h1 <;> rcases lt_or_le K 0 with h2 | h2
        · simp [h1, h2, abs_of_neg]
        · simp [h1, not_lt.2 h2, abs_of_neg, abs_of_nonneg h2]
        · simp [not_lt.2 h1, h2, abs_of_neg, abs_of_nonneg h1]
        · simp [not_lt.2 h1, not_lt.2 h2, abs_of_nonneg h1, abs_of_nonneg h2]
      have hr2 : minDuration ≤ (if xor (decide (d < 0)) (decide (K < 0)) then
          -((K.natAbs * d.natAbs : Nat) : Int) else ((K.natAbs * d.natAbs : Nat) : Int))
          ∧ (if xor (decide (d < 0)) (decide (K < 0)) then
          -((K.natAbs * d.natAbs : Nat) : Int) else ((K.natAbs * d.natAbs : Nat) : Int))
            ≤ maxDuration := by
        unfold minDuration maxDuration
        split_ifs <;> constructor <;> omega
      rw [if_pos hr2, hsign]

/-! ## Freezing -/

/-- Claim C3. After `Freeze(T)`, whatever the state before and whatever the real-time
source reads, `Now()` returns exactly `T`. -/
theorem now_after_freeze (unrep : F64 → Int) (c : timemockClock) (T now : Int) :
    (c.Freeze T).Now unrep now = T := by
  simp [timemockClock.Now, timemockClock.Freeze]

/-- Claim C1, as stated, fails: on a Live clock, `Freeze(1)` followed by `Travel(2)`
makes `Now()` return `2`, the instant given to `Travel`, not `1`. -/
theorem freeze_travel_now_counterexample :
    ((({ frozen := false, traveled := false, freezeTime := 0, travelTime := 0,
           scale := F64.one } : timemockClock).Freeze 1).Travel 2 0).Now amd64 0 = 2
    ∧ ((({ frozen := false, traveled := false, freezeTime := 0, travelTime := 0,
           scale := F64.one } : timemockClock).Freeze 1).Travel 2 0).Now amd64 0 ≠ 1 := by
  constructor <;> simp [timemockClock.Now, timemockClock.Freeze, timemockClock.Travel]

/-- Claim C1, amended. After `Freeze(T1)` followed by `Travel(T2)` the clock is still
frozen, so `Now()` does not depend on the real-time reading; but `Travel` has overwritten
the one anchor both modes share, and `Now()` returns exactly `T2` at every real instant. -/
theorem freeze_travel_now (unrep : F64 → Int) (c : timemockClock) (T1 T2 r0 now : Int) :
    ((c.Freeze T1).Travel T2 r0).frozen = true
    ∧ ((c.Freeze T1).Travel T2 r0).Now unrep now = T2 := by
  simp [timemockClock.Now, timemockClock.Freeze, timemockClock.Travel]

/-- Claim C2, as stated, fails: on a Live clock, `Freeze(5)` followed by `Scale(2)` made
when the real clock reads `100` makes `Now()` return `100`, not `5`. -/
theorem freeze_scale_now_counterexample :
    ((({ frozen := false, traveled := false, freezeTime := 0, travelTime := 0,
           scale := F64.one } : timemockClock).Freeze 5).Scale (F64.ofInt64 2) 100).Now amd64 7000
      = 100
    ∧ ((({ frozen := false, traveled := false, freezeTime := 0, travelTime := 0,
           scale := F64.one } : timemockClock).Freeze 5).Scale (F64.ofInt64 2) 100).Now amd64 7000
      ≠ 5 := by
  constructor <;> simp [timemockClock.Now, timemockClock.Freeze, timemockClock.Scale]

/-- Claim C2, amended. After `Freeze(T1)` followed by `Scale(k)` made when the real clock
reads `r0`, `Now()` is the same at every real instant: it is `T1` when the clock was
already traveling before the two calls, and `r0` when it was not (the implicit
travel-start of `Scale` overwrites the shared anchor). -/
theorem freeze_scale_now (unrep : F64 → Int) (c : timemockClock) (T1 : Int) (k : F64)
    (r0 now : Int) :
    ((c.Freeze T1).Scale k r0).Now unrep now = if c.traveled then T1 else r0 := by
  cases h : c.traveled <;>
    simp [timemockClock.Now, timemockClock.Freeze, timemockClock.Scale, h]

/-! ## Return -/

/-- Claim C4. After `Return()`, whatever the state before, both flags are clear and the
scale factor is `1`, so `Now()` returns exactly the real-time reading; and a later
`Scale(k)` made when the real clock reads `r0` makes `Now()` at reading `r1` equal `r0`
advanced (`Time.Add`) by the duration `r1 − r0` scaled by `k`, which is `r0 + k·(r1 − r0)`
whenever that sum is an instant `time.Time` holds; it is the same value as on any Live
clock, whatever anchors and factor that clock holds. -/
theorem return_resets (c : timemockClock) :
    c.Return.frozen = false ∧ c.Return.traveled = false ∧ c.Return.scale = F64.one
    ∧ (∀ (unrep : F64 → Int) (now : Int), c.Return.Now unrep now = now)
    ∧ (∀ (unrep : F64 → Int) (k : F64) (r0 r1 : Int),
        (c.Return.Scale k r0).Now unrep r1
          = Time.Add r0 (scaleDuration unrep k (Time.Sub r1 r0)))
    ∧ (∀ (unrep : F64 → Int) (k : F64) (r0 r1 : Int),
        Time.valid (r0 + scaleDuration unrep k (Time.Sub r1 r0)) →
        (c.Return.Scale k r0).Now unrep r1 = r0 + scaleDuration unrep k (Time.Sub r1 r0))
    ∧ (∀ (unrep : F64 → Int) (k : F64) (r0 r1 a b : Int) (f : F64),
        (c.Return.Scale k r0).Now unrep r1
          = (({ frozen := false, traveled := false, freezeTime := a, travelTime := b,
                scale := f } : timemockClock).Scale k r0).Now unrep r1) := by
  have key : ∀ (unrep : F64 → Int) (k : F64) (r0 r1 : Int),
      (c.Return.Scale k r0).Now unrep r1
        = Time.Add r0 (scaleDuration unrep k (Time.Sub r1 r0)) := by
    intro unrep k r0 r1
    simp [timemockClock.Now, timemockClock.Return, timemockClock.Scale, timeSince,
      scaleDuration]
  refine ⟨rfl, rfl, rfl, ?_, key, ?_, ?_⟩
  · intro unrep now
    simp [timemockClock.Now, timemockClock.Return]
  · intro unrep k r0 r1 hv
    rw [key, Time.Add_exact _ _ hv]
  · intro unrep k r0 r1 a b f
    simp [timemockClock.Now, timemockClock.Return, timemockClock.Scale]

set_option maxRecDepth 100000 in
/-- Claim C4 on a clock frozen and then returned: `Scale(60)` made when the real clock
reads `1000` makes `Now()` one second later read `1000` plus one minute. -/
theorem return_resets_witness :
    ((({ frozen := false, traveled := false, freezeTime := 0, travelTime := 0,
         scale := F64.one } : timemockClock).Freeze 5).Return.Scale (F64.ofInt64 60) 1000).Now
        amd64 1000001000
      = 1000 + 60000000000 :=
  ((return_resets
      (({ frozen := false, traveled := false, freezeTime := 0, travelTime := 0,
          scale := F64.one } : timemockClock).Freeze 5)).2.2.2.2.2.1
    amd64 (F64.ofInt64 60) 1000 1000001000 (by decide)).trans (by rfl)

/-! ## Scale -/

set_option maxRecDepth 100000 in
/-- Claim C5, as stated, fails: a clock traveling from anchor `0` (set when the real
clock read `0`) at rate `1` reads `10` when the real clock reads `10`; after `Scale(2)`
made at that same real instant it reads `20`. -/
theorem scale_while_traveling_counterexample :
    ({ frozen := false, traveled := true, freezeTime := 0, travelTime := 0,
       scale := F64.one } : timemockClock).Now amd64 10 = 10
    ∧ (({ frozen := false, traveled := true, freezeTime := 0, travelTime := 0,
          scale := F64.one } : timemockClock).Scale (F64.ofInt64 2) 10).Now amd64 10 = 20
    ∧ (({ frozen := false, traveled := true, freezeTime := 0, travelTime := 0,
          scale := F64.one } : timemockClock).Scale (F64.ofInt64 2) 10).Now amd64 10
      ≠ ({ frozen := false, traveled := true, freezeTime := 0, travelTime := 0,
           scale := F64.one } : timemockClock).Now amd64 10 := by
  refine ⟨by rfl, by rfl, by decide⟩

/-- Claim C5, amended. On a clock with traveling set and frozen clear, `Scale(f)` keeps
both anchors and applies the new factor to all the real time elapsed since the anchor:
`Now()` at real reading `r` after the call is `anchorTime` advanced (`Time.Add`) by `f`
times the time elapsed since `anchorRealTime`, which is
`anchorTime + f × (r − anchorRealTime)` whenever that sum is an instant `time.Time`
holds. It equals the reading before the call when `f` is the factor the clock already
had. -/
theorem scale_while_traveling (unrep : F64 → Int) (c : timemockClock) (f : F64)
    (rs r : Int) (ht : c.traveled = true) (hf : c.frozen = false) :
    (c.Scale f rs).freezeTime = c.freezeTime ∧ (c.Scale f rs).travelTime = c.travelTime
    ∧ (c.Scale f rs).Now unrep r
        = Time.Add c.freezeTime (scaleDuration unrep f (Time.Sub r c.travelTime))
    ∧ (Time.valid (c.freezeTime + scaleDuration unrep f (Time.Sub r c.travelTime)) →
        (c.Scale f rs).Now unrep r
          = c.freezeTime + scaleDuration unrep f (Time.Sub r c.travelTime))
    ∧ (f = c.scale → (c.Scale f rs).Now unrep r = c.Now unrep r) := by
  have key : (c.Scale f rs).Now unrep r
      = Time.Add c.freezeTime (scaleDuration unrep f (Time.Sub r c.travelTime)) := by
    simp [timemockClock.Now, timemockClock.Scale, ht, hf, timeSince, scaleDuration]
  refine ⟨?_, ?_, key, ?_, ?_⟩
  · simp [timemockClock.Scale, ht]
  · simp [timemockClock.Scale, ht]
  · intro hv
    rw [key, Time.Add_exact _ _ hv]
  · intro h
    simp [timemockClock.Now, timemockClock.Scale, ht, hf, h]

set_option maxRecDepth 100000 in
/-- The amended claim C5 at a clock traveling at rate `1` from anchor `0`, scaled by `2`:
at real reading `10` it reads `20`. -/
theorem scale_while_traveling_witness :
    (({ frozen := false, traveled := true, freezeTime := 0, travelTime := 0,
        scale := F64.one } : timemockClock).Scale (F64.ofInt64 2) 10).Now amd64 10 = 20 :=
  ((scale_while_traveling amd64
    { frozen := false, traveled := true, freezeTime := 0, travelTime := 0, scale := F64.one }
    (F64.ofInt64 2) 10 10 rfl rfl).2.2.2.1 (by decide)).trans (by rfl)

/-! ## Now -/

set_option maxRecDepth 100000 in
/-- Claim C6, as stated, fails at the end of the range of `time.Time`: on a clock
traveling at rate `1` from the anchor `time.Unix(MaxInt64 - 62135596800 - 5, 0)`, five
seconds before the last second `time.Time` holds, set when the real clock read `0`, the
rule gives the anchor plus ten seconds at real reading ten seconds, but `Now()` returns
the anchor plus five seconds: the seconds of `Time.Add` saturate. -/
theorem now_eq_spec_counterexample :
    Time.valid (timeUnix (9223372036854775807 - 62135596800 - 5))
    ∧ ({ frozen := false, traveled := true,
         freezeTime := timeUnix (9223372036854775807 - 62135596800 - 5), travelTime := 0,
         scale := F64.one } : timemockClock).Now amd64 10000000000
        = timeUnix (9223372036854775807 - 62135596800 - 5) + 5000000000
    ∧ NowSpec amd64
        { frozen := false, traveled := true,
          freezeTime := timeUnix (9223372036854775807 - 62135596800 - 5), travelTime := 0,
          scale := F64.one } 10000000000
        = timeUnix (9223372036854775807 - 62135596800 - 5) + 10000000000
    ∧ ({ frozen := false, traveled := true,
         freezeTime := timeUnix (9223372036854775807 - 62135596800 - 5), travelTime := 0,
         scale := F64.one } : timemockClock).Now amd64 10000000000
      ≠ NowSpec amd64
        { frozen := false, traveled := true,
          freezeTime := timeUnix (9223372036854775807 - 62135596800 - 5), travelTime := 0,
          scale := F64.one } 10000000000 := by
  refine ⟨by decide, by rfl, by rfl, by decide⟩

/-- Claim C6, amended. In every state and at every real-time reading `Now()` is decided
by the mode: the anchor when frozen is set, whatever traveling is; otherwise, when
traveling is set, the anchor advanced (`Time.Add`) by the scaled real time elapsed since
the real anchor; otherwise the real-time reading itself. Whenever the sum of the anchor
and the scaled elapsed time is an instant `time.Time` holds, this is the reading rule of
the data model, `anchorTime + scaleFactor × (realNow − anchorRealTime)`. -/
theorem now_eq_spec (unrep : F64 → Int) (c : timemockClock) (realNow : Int) :
    c.Now unrep realNow
      = (if c.frozen then c.freezeTime
         else if c.traveled then
           Time.Add c.freezeTime
             (F64.toInt64 unrep
               (F64.mul c.scale (F64.ofInt64 (Time.Sub realNow c.travelTime))))
         else realNow)
    ∧ ((c.frozen = false → c.traveled = true →
          Time.valid (c.freezeTime + F64.toInt64 unrep
            (F64.mul c.scale (F64.ofInt64 (Time.Sub realNow c.travelTime)))))
        → c.Now unrep realNow = NowSpec unrep c realNow) := by
  constructor
  · cases hf : c.frozen <;> cases ht : c.traveled <;>
      simp [timemockClock.Now, hf, ht, timeSince, F64.mul_comm c.scale]
  · intro hv
    cases hf : c.frozen <;> cases ht : c.traveled <;>
      simp [timemockClock.Now, NowSpec, hf, ht, timeSince, F64.mul_comm c.scale]
    have hv' := hv hf ht
    rw [F64.mul_comm c.scale] at hv'
    exact Time.Add_exact _ _ hv'

set_option maxRecDepth 100000 in
/-- The amended claim C6 on a clock traveling from instant `100` at factor `3`, anchored
when the real clock read `0`: at real reading `10` it reads `130`, as the rule says. -/
theorem now_eq_spec_witness :
    ({ frozen := false, traveled := true, freezeTime := 100, travelTime := 0,
       scale := F64.ofInt64 3 } : timemockClock).Now amd64 10
      = NowSpec amd64
          { frozen := false, traveled := true, freezeTime := 100, travelTime := 0,
            scale := F64.ofInt64 3 } 10 :=
  (now_eq_spec amd64
    { frozen := false, traveled := true, freezeTime := 100, travelTime := 0,
      scale := F64.ofInt64 3 } 10).2 (fun _ _ => by decide)

/-! ## Travel -/

set_option maxRecDepth 100000 in
/-- Claim C7, as stated, fails: on a fresh clock, `Travel(0)` made when the real clock
reads `0`, then `Now()` when it reads `2^53 + 1` nanoseconds (a little over 104 days
later) returns `2^53`, not `2^53 + 1`: `float64` has no value `2^53 + 1`. -/
theorem travel_rate_one_counterexample :
    (New.Travel 0 0).Now amd64 (0 + 9007199254740993) = 0 + 9007199254740992
    ∧ (New.Travel 0 0).Now amd64 (0 + 9007199254740993) ≠ 0 + 9007199254740993 := by
  refine ⟨by rfl, by decide⟩

/-- Claim C7, amended. On a clock created by `New()` on which `Scale` was never called,
for every instant `T` and every real elapsed duration `Δ` of at most `2^53` nanoseconds
in absolute value such that `T + Δ` is an instant `time.Time` holds, if `Travel(T)` is
called when the real clock reads `r0` then `Now()` called when the real clock reads
`r0 + Δ` returns exactly `T + Δ`. -/
theorem travel_rate_one (unrep : F64 → Int) (T r0 Δ : Int)
    (h1 : -9007199254740992 ≤ Δ) (h2 : Δ ≤ 9007199254740992)
    (hv : Time.valid (T + Δ)) :
    (New.Travel T r0).Now unrep (r0 + Δ) = T + Δ := by
  have hs : Time.Sub (r0 + Δ) r0 = Δ :=
    Time.Sub_add_left r0 Δ (by unfold minDuration; omega) (by unfold maxDuration; omega)
  rw [now_traveling unrep (New.Travel T r0) (r0 + Δ) rfl rfl]
  show Time.Add T (scaleDuration unrep F64.one (Time.Sub (r0 + Δ) r0)) = T + Δ
  rw [hs, scaleDuration, scale_one_exact unrep Δ h1 h2, Time.Add_exact _ _ hv]

/-- The amended claim C7 at the instant of the tests, one second after `Travel`. -/
theorem travel_rate_one_witness :
    (New.Travel (timeUnix 1522549800) 5).Now amd64 (5 + 1000000000)
      = timeUnix 1522549800 + 1000000000 :=
  travel_rate_one amd64 (timeUnix 1522549800) 5 1000000000 (by decide) (by decide)
    (by decide)

set_option maxRecDepth 100000 in
/-- Claim C8, as stated, fails: on a Live clock, after `Travel(Unix 1522549800)` made when
the real clock reads `0` and then `Scale(3)`, `Now()` at real reading `2^53 + 1`
nanoseconds returns the anchor plus `3 · 2^53`, not the anchor plus `3 · (2^53 + 1)`:
the elapsed time is rounded to a `float64` before it is multiplied. -/
theorem travel_scale_now_counterexample :
    ((({ frozen := false, traveled := false, freezeTime := 0, travelTime := 0,
         scale := F64.one } : timemockClock).Travel (timeUnix 1522549800) 0).Scale
        (F64.ofInt64 3) 250).Now amd64 (0 + 9007199254740993)
      = timeUnix 1522549800 + 3 * 9007199254740992
    ∧ ((({ frozen := false, traveled := false, freezeTime := 0, travelTime := 0,
           scale := F64.one } : timemockClock).Travel (timeUnix 1522549800) 0).Scale
          (F64.ofInt64 3) 250).Now amd64 (0 + 9007199254740993)
      ≠ timeUnix 1522549800 + 3 * 9007199254740993 := by
  refine ⟨by rfl, by decide⟩

/-- Claim C8, amended. On a Live clock (indeed on every clock that is not frozen), for
every instant `T` and real elapsed duration `Δ`, after `Travel(T)` made when the real
clock reads `r0` and then `Scale(k)` (made at any reading `rs`), `Now()` called when the
real clock reads `r0 + Δ` returns `T` advanced (`Time.Add`) by the `float64` product of
`Δ` and `k` with its fraction discarded; `Δ` is measured from the `Travel` call, not from
the `Scale` call. When `k` is an integer `K` of at most `2^53` in absolute value, the true
product `K·Δ` is at most `2^53` in absolute value and `T + K·Δ` is an instant `time.Time`
holds, `Now()` returns exactly `T + K·Δ`. -/
theorem travel_scale_now (unrep : F64 → Int) (c : timemockClock) (T : Int)
    (r0 rs Δ : Int) (hf : c.frozen = false) (h1 : minDuration ≤ Δ) (h2 : Δ ≤ maxDuration) :
    (∀ k : F64, ((c.Travel T r0).Scale k rs).Now unrep (r0 + Δ)
        = Time.Add T (scaleDuration unrep k Δ))
    ∧ (∀ K : Int, -9007199254740992 ≤ K → K ≤ 9007199254740992 →
        -9007199254740992 ≤ K * Δ → K * Δ ≤ 9007199254740992 → Time.valid (T + K * Δ) →
        ((c.Travel T r0).Scale (F64.ofInt64 K) rs).Now unrep (r0 + Δ) = T + K * Δ) := by
  have hs : Time.Sub (r0 + Δ) r0 = Δ := Time.Sub_add_left r0 Δ h1 h2
  have key : ∀ k : F64, ((c.Travel T r0).Scale k rs).Now unrep (r0 + Δ)
      = Time.Add T (scaleDuration unrep k Δ) := by
    intro k
    simp [timemockClock.Now, timemockClock.Scale, timemockClock.Travel, hf, timeSince,
      scaleDuration, hs]
  refine ⟨key, ?_⟩
  intro K hK1 hK2 hP1 hP2 hv
  rw [key, scale_int_exact unrep K Δ h1 h2 hK1 hK2 hP1 hP2, Time.Add_exact _ _ hv]

/-- The amended claim C8 at the values of the test: on a Live clock, `T = Unix 1522549800`,
`k = 60` and `Δ` one second give `T` plus one minute, also when `Scale` is called 250 ns
after `Travel`. -/
theorem travel_scale_now_witness :
    ((({ frozen := false, traveled := false, freezeTime := 0, travelTime := 0,
         scale := F64.one } : timemockClock).Travel (timeUnix 1522549800) 0).Scale
        (F64.ofInt64 60) 250).Now amd64 (0 + 1000000000)
      = timeUnix 1522549800 + 60 * 1000000000 :=
  (travel_scale_now amd64
    { frozen := false, traveled := false, freezeTime := 0, travelTime := 0, scale := F64.one }
    (timeUnix 1522549800) 0 250 1000000000 rfl (by decide) (by decide)).2
    60 (by decide) (by decide) (by decide) (by decide) (by decide)

/-! ## Scale on a Live clock -/

/-- Claim C9, as stated, fails for a factor that is not finite: on a Live clock, after
`Scale(NaN)` made when the real clock reads `0`, `Now()` at that same reading is not `0`:
the product `0 × NaN` is NaN, which amd64 converts to the least `int64`. -/
theorem scale_on_live_counterexample :
    (({ frozen := false, traveled := false, freezeTime := 0, travelTime := 0,
        scale := F64.one } : timemockClock).Scale F64.nan 0).Now amd64 0
      = -9223372036854775808
    ∧ (({ frozen := false, traveled := false, freezeTime := 0, travelTime := 0,
          scale := F64.one } : timemockClock).Scale F64.nan 0).Now amd64 0 ≠ 0 := by
  refine ⟨by rfl, by decide⟩

/-- Claim C9, amended. On a Live clock, for every factor `k`, `Scale(k)` called when the
real clock reads `r0` sets traveling, sets the factor and anchors both `anchorTime` and
`anchorRealTime` at `r0`, so that `Now()` at real reading `r1` equals `r0` advanced
(`Time.Add`) by the duration `r1 − r0` scaled by `k`, which is `r0 + k·(r1 − r0)`
whenever that sum is an instant `time.Time` holds; when `k` is finite (neither NaN nor an
infinity), `Now()` at `r0` itself is `r0`. -/
theorem scale_on_live (unrep : F64 → Int) (c : timemockClock) (k : F64) (r0 r1 : Int)
    (hf : c.frozen = false) (ht : c.traveled = false) :
    (c.Scale k r0).traveled = true ∧ (c.Scale k r0).frozen = false
    ∧ (c.Scale k r0).freezeTime = r0 ∧ (c.Scale k r0).travelTime = r0
    ∧ (c.Scale k r0).scale = k
    ∧ (c.Scale k r0).Now unrep r1 = Time.Add r0 (scaleDuration unrep k (Time.Sub r1 r0))
    ∧ (Time.valid (r0 + scaleDuration unrep k (Time.Sub r1 r0)) →
        (c.Scale k r0).Now unrep r1 = r0 + scaleDuration unrep k (Time.Sub r1 r0))
    ∧ (k.isFinite = true → (c.Scale k r0).Now unrep r0 = r0) := by
  have hn : ∀ r : Int,
      (c.Scale k r0).Now unrep r = Time.Add r0 (scaleDuration unrep k (Time.Sub r r0)) := by
    intro r
    simp [timemockClock.Now, timemockClock.Scale, hf, ht, timeSince, scaleDuration]
  refine ⟨?_, ?_, ?_, ?_, ?_, hn r1, ?_, ?_⟩
  · simp [timemockClock.Scale, ht]
  · simp [timemockClock.Scale, ht, hf]
  · simp [timemockClock.Scale, ht]
  · simp [timemockClock.Scale, ht]
  · simp [timemockClock.Scale, ht]
  · intro hv
    rw [hn r1, Time.Add_exact _ _ hv]
  · intro hk
    rw [hn r0, Time.Sub_self, scaleDuration_zero unrep k hk, Time.Add_zero]

/-- The amended claim C9 on a Live clock scaled by `60` when the real clock reads `7`. -/
theorem scale_on_live_witness :
    (({ frozen := false, traveled := false, freezeTime := 0, travelTime := 0,
        scale := F64.one } : timemockClock).Scale (F64.ofInt64 60) 7).Now amd64 7 = 7 :=
  (scale_on_live amd64
    { frozen := false, traveled := false, freezeTime := 0, travelTime := 0, scale := F64.one }
    (F64.ofInt64 60) 7 7 rfl rfl).2.2.2.2.2.2.2 rfl

/-! ## Since and Until -/

/-- Claim C10. In every state, at every real-time reading and for every instant `t`,
`Since(t)` is `Now() − t` and `Until(t)` is `t − Now()`, the difference of instants that
`Time.Sub` gives, with `Now()` the value the clock returns in that state at that reading;
where the exact difference is an `int64` it is that difference; and after `Freeze(t)`,
`Since(t)` is zero at every real-time reading. -/
theorem since_until_from_now (unrep : F64 → Int) (c : timemockClock) (t now : Int) :
    c.Since unrep t now = Time.Sub (c.Now unrep now) t
    ∧ c.Until unrep t now = Time.Sub t (c.Now unrep now)
    ∧ (minDuration ≤ c.Now unrep now - t ∧ c.Now unrep now - t ≤ maxDuration →
        c.Since unrep t now = c.Now unrep now - t)
    ∧ (minDuration ≤ t - c.Now unrep now ∧ t - c.Now unrep now ≤ maxDuration →
        c.Until unrep t now = t - c.Now unrep now)
    ∧ (c.Freeze t).Since unrep t now = 0 := by
  refine ⟨rfl, rfl, ?_, ?_, ?_⟩
  · rintro ⟨h1, h2⟩
    simp only [timemockClock.Since, Time.Sub]
    rw [if_neg (not_lt.mpr h1), if_neg (not_lt.mpr h2)]
  · rintro ⟨h1, h2⟩
    simp only [timemockClock.Until, Time.Sub]
    rw [if_neg (not_lt.mpr h1), if_neg (not_lt.mpr h2)]
  · have hn : (c.Freeze t).Now unrep now = t := by
      simp [timemockClock.Now, timemockClock.Freeze]
    rw [timemockClock.Since, hn, Time.Sub_self]

/-- Claim C10 on a clock frozen at the instant of the tests, read a second later:
`Since` of an instant ten nanoseconds earlier is ten nanoseconds. -/
theorem since_until_from_now_witness :
    (({ frozen := false, traveled := false, freezeTime := 0, travelTime := 0,
        scale := F64.one } : timemockClock).Freeze (timeUnix 1522549800)).Since amd64
        (timeUnix 1522549800 - 10) 1000000000
      = 10 :=
  ((since_until_from_now amd64
      (({ frozen := false, traveled := false, freezeTime := 0, travelTime := 0,
          scale := F64.one } : timemockClock).Freeze (timeUnix 1522549800))
      (timeUnix 1522549800 - 10) 1000000000).2.2.1 (by decide)).trans (by decide)

/-! ## The Live clock -/

/-- A reader leaves the state as it is. -/
theorem runCalls_readers (c : timemockClock) (cs : List (Call × Int))
    (h : ∀ p ∈ cs, p.1.isReader = true) : runCalls c cs = c := by
  induction cs with
  | nil => rfl
  | cons p rest ih =>
    have hp : p.1.isReader = true := h p (List.mem_cons_self _ _)
    have hrest : ∀ q ∈ rest, q.1.isReader = true := fun q hq => h q (List.mem_cons_of_mem _ hq)
    have hstep : p.1.after c p.2 = c := by
      cases hop : p.1 <;> simp [hop, Call.isReader] at hp <;> rfl
    rw [runCalls, hstep]
    exact ih hrest

/-- Claim C11. A clock freshly created by `New()` is Live with scale factor `1`; `Now()`
returns exactly the real-time reading at the call, `Since(t)` that reading minus `t` and
`Until(t)` is `t` minus that reading; and no sequence of calls of the three readers
changes the state, so this lasts as long as no mutator is called. -/
theorem new_is_live (unrep : F64 → Int) (t now : Int) :
    New.frozen = false ∧ New.traveled = false ∧ New.scale = F64.one
    ∧ New.Now unrep now = now
    ∧ New.Since unrep t now = Time.Sub now t
    ∧ New.Until unrep t now = Time.Sub t now
    ∧ (∀ cs : List (Call × Int), (∀ p ∈ cs, p.1.isReader = true) → runCalls New cs = New) :=
  ⟨rfl, rfl, rfl, rfl, rfl, rfl, fun cs h => runCalls_readers New cs h⟩

/-- Claim C11 on three reads of a fresh clock: the state is still the fresh one. -/
theorem new_is_live_witness :
    runCalls New [(Call.Now, 5), (Call.Since 3, 6), (Call.Until 9, 7)] = New :=
  (new_is_live amd64 0 0).2.2.2.2.2.2 _ (by decide)

/-! ## The flags -/

/-- Claim C14. For every state and every finite sequence of calls without `Return`
(`Freeze`, `Travel` and `Scale`, and the readers as well), a flag that is set before the
sequence is still set after it; `Freeze` leaves the traveling flag as it is, and `Travel`
and `Scale` leave the frozen flag as it is. -/
theorem flags_stay_set (c : timemockClock) (cs : List (Call × Int))
    (h : ∀ p ∈ cs, p.1 ≠ Call.Return) :
    (c.frozen = true → (runCalls c cs).frozen = true)
    ∧ (c.traveled = true → (runCalls c cs).traveled = true)
    ∧ (∀ t : Int, (c.Freeze t).traveled = c.traveled)
    ∧ (∀ t now : Int, (c.Travel t now).frozen = c.frozen)
    ∧ (∀ (k : F64) (now : Int), (c.Scale k now).frozen = c.frozen) := by
  have step : ∀ (op : Call) (now : Int) (d : timemockClock), op ≠ Call.Return →
      (d.frozen = true → (op.after d now).frozen = true)
      ∧ (d.traveled = true → (op.after d now).traveled = true) := by
    intro op now d hop
    cases op with
    | Return => exact absurd rfl hop
    | Scale k =>
      cases ht : d.traveled <;> simp [Call.after, timemockClock.Scale, ht]
    | _ => simp [Call.after, timemockClock.Freeze, timemockClock.Travel]
  have main : ∀ (cs : List (Call × Int)) (d : timemockClock),
      (∀ p ∈ cs, p.1 ≠ Call.Return) →
      (d.frozen = true → (runCalls d cs).frozen = true)
      ∧ (d.traveled = true → (runCalls d cs).traveled = true) := by
    intro cs
    induction cs with
    | nil => intro d _; exact ⟨id, id⟩
    | cons p rest ih =>
      intro d hd
      have h1 := step p.1 p.2 d (hd p (List.mem_cons_self _ _))
      have h2 := ih (p.1.after d p.2) (fun q hq => hd q (List.mem_cons_of_mem _ hq))
      exact ⟨fun hf => h2.1 (h1.1 hf), fun ht => h2.2 (h1.2 ht)⟩
  refine ⟨(main cs c h).1, (main cs c h).2, ?_, ?_, ?_⟩
  · intro t; rfl
  · intro t now; rfl
  · intro k now
    cases ht : c.traveled <;> simp [timemockClock.Scale, ht]

/-- Claim C14 on a frozen clock that is then moved, scaled and frozen again. -/
theorem flags_stay_set_witness :
    (runCalls ({ frozen := true, traveled := false, freezeTime := 0, travelTime := 0,
                 scale := F64.one } : timemockClock)
        [(Call.Travel 4, 1), (Call.Scale (F64.ofInt64 2), 2), (Call.Freeze 9, 3)]).frozen
      = true :=
  (flags_stay_set
    { frozen := true, traveled := false, freezeTime := 0, travelTime := 0, scale := F64.one }
    [(Call.Travel 4, 1), (Call.Scale (F64.ofInt64 2), 2), (Call.Freeze 9, 3)]
    (by decide)).1 rfl

/-! ## What each mutator leaves alone -/

set_option maxRecDepth 100000 in
/-- Claim C15, as stated, fails at the end of the range of `time.Time`: on a clock
traveling at factor `2` from the anchor `time.Unix(MaxInt64 - 62135596800 - 5, 0)`, set
when the real clock read `0`, after `Scale(1)` the old anchor plus `1` times the ten
seconds elapsed is the anchor plus ten seconds, but `Now()` returns the anchor plus five
seconds: the seconds of `Time.Add` saturate. -/
theorem scale_changes_only_factor_counterexample :
    (({ frozen := false, traveled := true,
        freezeTime := timeUnix (9223372036854775807 - 62135596800 - 5), travelTime := 0,
        scale := F64.ofInt64 2 } : timemockClock).Scale F64.one 7).Now amd64 10000000000
      = timeUnix (9223372036854775807 - 62135596800 - 5) + 5000000000
    ∧ (({ frozen := false, traveled := true,
          freezeTime := timeUnix (9223372036854775807 - 62135596800 - 5), travelTime := 0,
          scale := F64.ofInt64 2 } : timemockClock).Scale F64.one 7).Now amd64 10000000000
      ≠ timeUnix (9223372036854775807 - 62135596800 - 5) + 1 * (10000000000 - 0) := by
  refine ⟨by rfl, by decide⟩

/-- Claim C15, amended. On a clock with traveling set, `Scale(f)` sets the factor to `f`
and leaves both anchors and both flags exactly as they were, so that afterwards, when the
clock is not frozen, `Now()` at real reading `r` is the old `anchorTime` advanced
(`Time.Add`) by `f` times the real time elapsed since the old `anchorRealTime`, which is
the old `anchorTime + f × (r − anchorRealTime)` whenever that sum is an instant
`time.Time` holds. -/
theorem scale_changes_only_factor (unrep : F64 → Int) (c : timemockClock) (f : F64)
    (rs r : Int) (ht : c.traveled = true) :
    c.Scale f rs = { c with scale := f }
    ∧ (c.Scale f rs).scale = f
    ∧ (c.Scale f rs).freezeTime = c.freezeTime
    ∧ (c.Scale f rs).travelTime = c.travelTime
    ∧ (c.Scale f rs).frozen = c.frozen
    ∧ (c.Scale f rs).traveled = c.traveled
    ∧ (c.frozen = false →
        (c.Scale f rs).Now unrep r
          = Time.Add c.freezeTime (scaleDuration unrep f (Time.Sub r c.travelTime)))
    ∧ (c.frozen = false →
        Time.valid (c.freezeTime + scaleDuration unrep f (Time.Sub r c.travelTime)) →
        (c.Scale f rs).Now unrep r
          = c.freezeTime + scaleDuration unrep f (Time.Sub r c.travelTime)) := by
  have e : c.Scale f rs = { c with scale := f } := by
    simp [timemockClock.Scale, ht]
  have key : c.frozen = false → (c.Scale f rs).Now unrep r
      = Time.Add c.freezeTime (scaleDuration unrep f (Time.Sub r c.travelTime)) := by
    intro hf
    rw [e]
    exact now_traveling unrep { c with scale := f } r hf ht
  refine ⟨e, ?_, ?_, ?_, ?_, ?_, key, ?_⟩
  · rw [e]
  · rw [e]
  · rw [e]
  · rw [e]
  · rw [e]
  · intro hf hv
    rw [key hf, Time.Add_exact _ _ hv]

set_option maxRecDepth 100000 in
/-- The amended claim C15 on a clock traveling from instant `100`, anchored when the real
clock read `0`: after `Scale(3)`, at real reading `10` it reads `130`. -/
theorem scale_changes_only_factor_witness :
    (({ frozen := false, traveled := true, freezeTime := 100, travelTime := 0,
        scale := F64.one } : timemockClock).Scale (F64.ofInt64 3) 7).Now amd64 10 = 130 :=
  ((scale_changes_only_factor amd64
    { frozen := false, traveled := true, freezeTime := 100, travelTime := 0,
      scale := F64.one }
    (F64.ofInt64 3) 7 10 rfl).2.2.2.2.2.2.2 rfl (by decide)).trans (by rfl)

/-- Claim C16. For every state and instants `t1`, `t2`, the state after `Freeze(t1)`
followed by `Freeze(t2)` is the state after `Freeze(t2)` alone, so `Freeze(t)` twice is
`Freeze(t)`; and `Freeze` changes only `anchorTime` and the frozen flag: the traveling
flag, `anchorRealTime` and the factor are as before. -/
theorem freeze_last_write_wins (c : timemockClock) (t1 t2 : Int) :
    (c.Freeze t1).Freeze t2 = c.Freeze t2
    ∧ (c.Freeze t2).Freeze t2 = c.Freeze t2
    ∧ (c.Freeze t2).freezeTime = t2
    ∧ (c.Freeze t2).frozen = true
    ∧ (c.Freeze t2).traveled = c.traveled
    ∧ (c.Freeze t2).travelTime = c.travelTime
    ∧ (c.Freeze t2).scale = c.scale :=
  ⟨rfl, rfl, rfl, rfl, rfl, rfl, rfl⟩

set_option maxRecDepth 100000 in
/-- Claim C17, as stated, fails at the end of the range of `time.Time`: on a Live clock,
after `Scale(1)` and then `Travel(T)` for `T = time.Unix(MaxInt64 - 62135596800 - 5, 0)`
made when the real clock reads `0`, `T + 1 · (r1 − r0)` at `r1` ten seconds later is `T`
plus ten seconds, but `Now()` returns `T` plus five seconds: the seconds of `Time.Add`
saturate. -/
theorem travel_keeps_factor_counterexample :
    ((({ frozen := false, traveled := false, freezeTime := 0, travelTime := 0,
         scale := F64.one } : timemockClock).Scale F64.one 0).Travel
        (timeUnix (9223372036854775807 - 62135596800 - 5)) 0).Now amd64 10000000000
      = timeUnix (9223372036854775807 - 62135596800 - 5) + 5000000000
    ∧ ((({ frozen := false, traveled := false, freezeTime := 0, travelTime := 0,
           scale := F64.one } : timemockClock).Scale F64.one 0).Travel
          (timeUnix (9223372036854775807 - 62135596800 - 5)) 0).Now amd64 10000000000
      ≠ timeUnix (9223372036854775807 - 62135596800 - 5) + 1 * (10000000000 - 0) := by
  refine ⟨by rfl, by decide⟩

/-- Claim C17, amended. For every state and instant `T`, `Travel(T)` made when the real
clock reads `r0` sets `anchorTime = T`, `anchorRealTime = r0` and the traveling flag, and
leaves the factor and the frozen flag as they were; hence on a clock that is not frozen,
after `Scale(k)` and then `Travel(T)`, `Now()` at real reading `r1` is `T` advanced
(`Time.Add`) by `k` times the elapsed `r1 − r0`, which is `T + k·(r1 − r0)` whenever that
sum is an instant `time.Time` holds. -/
theorem travel_keeps_factor (unrep : F64 → Int) (c : timemockClock) (T r0 : Int) :
    (c.Travel T r0).freezeTime = T
    ∧ (c.Travel T r0).travelTime = r0
    ∧ (c.Travel T r0).traveled = true
    ∧ (c.Travel T r0).scale = c.scale
    ∧ (c.Travel T r0).frozen = c.frozen
    ∧ (∀ (k : F64) (rs r1 : Int), c.frozen = false →
        ((c.Scale k rs).Travel T r0).Now unrep r1
          = Time.Add T (scaleDuration unrep k (Time.Sub r1 r0)))
    ∧ (∀ (k : F64) (rs r1 : Int), c.frozen = false →
        Time.valid (T + scaleDuration unrep k (Time.Sub r1 r0)) →
        ((c.Scale k rs).Travel T r0).Now unrep r1
          = T + scaleDuration unrep k (Time.Sub r1 r0)) := by
  have key : ∀ (k : F64) (rs r1 : Int), c.frozen = false →
      ((c.Scale k rs).Travel T r0).Now unrep r1
        = Time.Add T (scaleDuration unrep k (Time.Sub r1 r0)) := by
    intro k rs r1 hf
    have hfz : ((c.Scale k rs).Travel T r0).frozen = false := by
      cases ht : c.traveled <;> simp [timemockClock.Travel, timemockClock.Scale, ht, hf]
    have hsc : ((c.Scale k rs).Travel T r0).scale = k := by
      cases ht : c.traveled <;> simp [timemockClock.Travel, timemockClock.Scale, ht]
    rw [now_traveling unrep _ r1 hfz rfl, hsc]
    rfl
  refine ⟨rfl, rfl, rfl, rfl, rfl, key, ?_⟩
  intro k rs r1 hf hv
  rw [key k rs r1 hf, Time.Add_exact _ _ hv]

set_option maxRecDepth 100000 in
/-- The amended claim C17 on a Live clock: after `Scale(2)` and then `Travel(100)` made
when the real clock reads `0`, `Now()` at real reading `10` is `120`, not `110`. -/
theorem travel_keeps_factor_witness :
    ((({ frozen := false, traveled := false, freezeTime := 0, travelTime := 0,
         scale := F64.one } : timemockClock).Scale (F64.ofInt64 2) 0).Travel 100 0).Now
        amd64 10 = 120 :=
  ((travel_keeps_factor amd64
    { frozen := false, traveled := false, freezeTime := 0, travelTime := 0, scale := F64.one }
    100 0).2.2.2.2.2.2 (F64.ofInt64 2) 0 10 rfl (by decide)).trans (by rfl)

/-! ## Invariants of the reachable states -/

/-- Every call keeps "scale factor `1` unless traveling". -/
theorem after_keeps_rate (op : Call) (now : Int) (d : timemockClock)
    (h : d.traveled = false → d.scale = F64.one) :
    (op.after d now).traveled = false → (op.after d now).scale = F64.one := by
  cases op with
  | Scale k => cases ht : d.traveled <;> simp [Call.after, timemockClock.Scale, ht]
  | Return => intro _; rfl
  | Travel t => simp [Call.after, timemockClock.Travel]
  | Freeze t => exact h
  | Now => exact h
  | Since t => exact h
  | Until t => exact h

/-- Sequences of calls keep "scale factor `1` unless traveling". -/
theorem runCalls_keeps_rate (cs : List (Call × Int)) : ∀ d : timemockClock,
    (d.traveled = false → d.scale = F64.one) →
    (runCalls d cs).traveled = false → (runCalls d cs).scale = F64.one := by
  induction cs with
  | nil => intro d h; exact h
  | cons p rest ih =>
    intro d h
    exact ih (p.1.after d p.2) (after_keeps_rate p.1 p.2 d h)

/-- Claim C18. In every state reachable from `New()` by a finite sequence of calls
(`Freeze`, `Travel`, `Scale`, `Return`, and the readers), if the traveling flag is clear
then the scale factor is `1`. -/
theorem rate_one_unless_traveling (cs : List (Call × Int))
    (h : (runCalls New cs).traveled = false) : (runCalls New cs).scale = F64.one :=
  runCalls_keeps_rate cs New (fun _ => rfl) h

/-- Claim C18 after `Scale(60)`, `Freeze` and `Return` on a fresh clock. -/
theorem rate_one_unless_traveling_witness :
    (runCalls New [(Call.Scale (F64.ofInt64 60), 5), (Call.Freeze 8, 6), (Call.Return, 7)]).scale
      = F64.one :=
  rate_one_unless_traveling
    [(Call.Scale (F64.ofInt64 60), 5), (Call.Freeze 8, 6), (Call.Return, 7)] rfl

/-- States with the same readable anchors return the same value to every call. -/
theorem sameReadings_result (unrep : F64 → Int) (a b : timemockClock) (op : Call)
    (now : Int) (h : sameReadings a b) : op.result unrep a now = op.result unrep b now := by
  obtain ⟨hf, ht, hs, hft, htt⟩ := h
  have hnow : a.Now unrep now = b.Now unrep now := by
    cases hbf : b.frozen <;> cases hbt : b.traveled <;>
      simp [hbf, hbt] at hf ht <;>
      simp [hf, ht] at hft htt <;>
      simp [timemockClock.Now, hf, ht, hbf, hbt, hs, hft, htt]
  cases op <;> simp [Call.result, timemockClock.Since, timemockClock.Until, hnow]

/-- States with the same readable anchors stay so after every call. -/
theorem sameReadings_after (a b : timemockClock) (op : Call) (now : Int)
    (h : sameReadings a b) : sameReadings (op.after a now) (op.after b now) := by
  obtain ⟨hf, ht, hs, hft, htt⟩ := h
  cases op with
  | Now => exact ⟨hf, ht, hs, hft, htt⟩
  | Since t => exact ⟨hf, ht, hs, hft, htt⟩
  | Until t => exact ⟨hf, ht, hs, hft, htt⟩
  | Freeze t => exact ⟨rfl, ht, hs, fun _ => rfl, htt⟩
  | Travel t => exact ⟨hf, rfl, hs, fun _ => rfl, fun _ => rfl⟩
  | Return => exact ⟨rfl, rfl, rfl, fun h => by simp [Call.after, timemockClock.Return] at h,
      fun h => by simp [Call.after, timemockClock.Return] at h⟩
  | Scale k =>
    show sameReadings (a.Scale k now) (b.Scale k now)
    cases hbt : b.traveled with
    | false =>
      have hat : a.traveled = false := by rw [ht, hbt]
      have ea : a.Scale k now
          = { a with scale := k, freezeTime := now, travelTime := now, traveled := true } := by
        simp [timemockClock.Scale, hat]
      have eb : b.Scale k now
          = { b with scale := k, freezeTime := now, travelTime := now, traveled := true } := by
        simp [timemockClock.Scale, hbt]
      rw [ea, eb]
      exact ⟨hf, rfl, rfl, fun _ => rfl, fun _ => rfl⟩
    | true =>
      have hat : a.traveled = true := by rw [ht, hbt]
      have ea : a.Scale k now = { a with scale := k } := by simp [timemockClock.Scale, hat]
      have eb : b.Scale k now = { b with scale := k } := by simp [timemockClock.Scale, hbt]
      rw [ea, eb]
      exact ⟨hf, ht, rfl, hft, htt⟩

/-- States with the same readable anchors return the same values along every sequence
of calls. -/
theorem sameReadings_results (unrep : F64 → Int) (cs : List (Call × Int)) :
    ∀ a b : timemockClock, sameReadings a b → results unrep a cs = results unrep b cs := by
  induction cs with
  | nil => intro a b _; rfl
  | cons p rest ih =>
    intro a b h
    simp only [results]
    rw [sameReadings_result unrep a b p.1 p.2 h,
      ih _ _ (sameReadings_after a b p.1 p.2 h)]

/-- Claim C19. For every state `s`, every finite sequence of calls (`Now`, `Since`,
`Until`, `Freeze`, `Travel`, `Scale`, `Return`) and every sequence of real-time readings
fed to them, the calls return the same values from `Return(s)` as from the state `New()`
creates, although `Return` resets neither anchor. -/
theorem return_like_new (unrep : F64 → Int) (s : timemockClock) (cs : List (Call × Int)) :
    results unrep s.Return cs = results unrep New cs :=
  sameReadings_results unrep cs s.Return New
    ⟨rfl, rfl, rfl, fun h => by simp [timemockClock.Return] at h,
      fun h => by simp [timemockClock.Return] at h⟩

/-! ## The direction of time -/

set_option maxRecDepth 100000 in
/-- Claim C12, as stated, fails where the scaled duration overflows: a clock traveling
from anchor `0` (set when the real clock read `0`) at the factor `10^10 ≥ 0` reads
`10^10` at real reading `1`; at real reading `10^9`, one second after the anchor, the
product is `10^19` ns, more than an `int64` holds, amd64 converts it to the least `int64`,
and `Now()` is earlier than before. -/
theorem now_monotone_counterexample :
    F64.nonneg (F64.ofInt64 10000000000) = true
    ∧ ({ frozen := false, traveled := true, freezeTime := 0, travelTime := 0,
         scale := F64.ofInt64 10000000000 } : timemockClock).Now amd64 1 = 10000000000
    ∧ ({ frozen := false, traveled := true, freezeTime := 0, travelTime := 0,
         scale := F64.ofInt64 10000000000 } : timemockClock).Now amd64 1000000000
        = -9223372036854775808
    ∧ ¬ (({ frozen := false, traveled := true, freezeTime := 0, travelTime := 0,
            scale := F64.ofInt64 10000000000 } : timemockClock).Now amd64 1
          ≤ ({ frozen := false, traveled := true, freezeTime := 0, travelTime := 0,
               scale := F64.ofInt64 10000000000 } : timemockClock).Now amd64 1000000000) := by
  refine ⟨by rfl, by rfl, by rfl, by decide⟩

/-- Claim C12, amended. For a clock that is traveling and not frozen and real readings
`r1 ≤ r2` taken with no mutator call in between, when at both readings the scaled elapsed
duration is one the conversion to `Duration` represents (the `float64` product is finite
and its whole part is an `int64`) and the anchor plus that duration is an instant
`time.Time` holds, `Now()` at `r2` is not earlier than `Now()` at `r1` if the scale
factor is `≥ 0` and not later if the scale factor is `≤ 0`; and with factor `0` the clock
stands still at its anchor at every reading. -/
theorem now_monotone (unrep : F64 → Int) (c : timemockClock) (r1 r2 : Int)
    (ht : c.traveled = true) (hf : c.frozen = false) (hr : r1 ≤ r2)
    (h1 : (F64.mul (F64.ofInt64 (Time.Sub r1 c.travelTime)) c.scale).fitsInt64 = true)
    (h2 : (F64.mul (F64.ofInt64 (Time.Sub r2 c.travelTime)) c.scale).fitsInt64 = true)
    (hv1 : Time.valid
      (c.freezeTime + (F64.mul (F64.ofInt64 (Time.Sub r1 c.travelTime)) c.scale).trunc))
    (hv2 : Time.valid
      (c.freezeTime + (F64.mul (F64.ofInt64 (Time.Sub r2 c.travelTime)) c.scale).trunc)) :
    (c.scale.nonneg = true → c.Now unrep r1 ≤ c.Now unrep r2)
    ∧ (c.scale.nonpos = true → c.Now unrep r2 ≤ c.Now unrep r1)
    ∧ (∀ (b : Bool) (e r : Int), c.scale = .fin b 0 e → c.Now unrep r = c.freezeTime) := by
  have hd := Time.Sub_mono c.travelTime hr
  have e1 : c.Now unrep r1
      = c.freezeTime + (F64.mul (F64.ofInt64 (Time.Sub r1 c.travelTime)) c.scale).trunc := by
    rw [now_traveling unrep c r1 hf ht, scaleDuration, F64.toInt64_of_fits unrep _ h1,
      Time.Add_exact _ _ hv1]
  have e2 : c.Now unrep r2
      = c.freezeTime + (F64.mul (F64.ofInt64 (Time.Sub r2 c.travelTime)) c.scale).trunc := by
    rw [now_traveling unrep c r2 hf ht, scaleDuration, F64.toInt64_of_fits unrep _ h2,
      Time.Add_exact _ _ hv2]
  refine ⟨?_, ?_, ?_⟩
  · intro hk
    obtain ⟨t1, m1, g1, x1⟩ := F64.fin_of_fits _ h1
    obtain ⟨t2, m2, g2, x2⟩ := F64.fin_of_fits _ h2
    obtain ⟨b, n, f, hs⟩ := F64.mul_round_fin_right _ t1 _ m1 g1 c.scale x1
    rw [hs] at x1 x2 hk
    have hb : b = false ∨ n = 0 := by
      cases b <;> simp [F64.nonneg] at hk ⊢
      exact hk
    have := (trunc_scaled_mono b n f _ _ hd t1 t2 m1 m2 g1 g2 x1 x2).1 hb
    rw [e1, e2, hs, x1, x2]
    omega
  · intro hk
    obtain ⟨t1, m1, g1, x1⟩ := F64.fin_of_fits _ h1
    obtain ⟨t2, m2, g2, x2⟩ := F64.fin_of_fits _ h2
    obtain ⟨b, n, f, hs⟩ := F64.mul_round_fin_right _ t1 _ m1 g1 c.scale x1
    rw [hs] at x1 x2 hk
    have hb : b = true ∨ n = 0 := by
      cases b <;> simp [F64.nonpos] at hk ⊢
      exact hk
    have := (trunc_scaled_mono b n f _ _ hd t1 t2 m1 m2 g1 g2 x1 x2).2 hb
    rw [e1, e2, hs, x1, x2]
    omega
  · intro b e r hs
    have hb := Time.Sub_bounds r c.travelTime
    rw [now_traveling unrep c r hf ht, hs, scaleDuration_zero_factor unrep b e _ hb.1 hb.2,
      Time.Add_zero]

set_option maxRecDepth 100000 in
/-- The amended claim C12 on a clock traveling from anchor `0` at factor `60`: it reads no
earlier one second after the anchor than one nanosecond after it. -/
theorem now_monotone_witness :
    ({ frozen := false, traveled := true, freezeTime := 0, travelTime := 0,
       scale := F64.ofInt64 60 } : timemockClock).Now amd64 1
      ≤ ({ frozen := false, traveled := true, freezeTime := 0, travelTime := 0,
           scale := F64.ofInt64 60 } : timemockClock).Now amd64 1000000000 :=
  (now_monotone amd64
    { frozen := false, traveled := true, freezeTime := 0, travelTime := 0,
      scale := F64.ofInt64 60 }
    1 1000000000 rfl rfl (by decide) (by rfl) (by rfl) (by decide) (by decide)).1 (by rfl)

end timemock
